import Mathlib

/-
  Verification of the Fourier-transform engine in `lcapy/fourier.py`.

  The Python module manipulates SymPy expression trees.  We embed the
  fragment of SymPy's expression language that the module touches as the
  inductive type `Ex` below, together with smart constructors (`addE`,
  `mulE`, `powE`, ...) that model SymPy's automatic canonicalisation of
  `Add`/`Mul`/`Pow` nodes: flattening, collection of the rational
  coefficient, combination of powers with an equal base (so that
  `(a*t)/t` reduces to `a`), and the integer power cycle of the
  imaginary unit.  SymPy's full canonical ordering and like-term
  collection are not reproduced: argument order is the construction
  order, which is what the Python code relies on for the inputs at hand.

  The SymPy solver `sym.fourier_transform` that `fourier_sympy` wraps is
  an external collaborator of the module; it is modelled as an explicit
  function parameter `S : Solver`.  The module-level mutable dictionary
  `fourier_cache` is modelled by explicit state passing of an
  association list.

  Sum and product nodes carry their arguments as the mutually inductive
  list type `ExList` (isomorphic to `List Ex`, with `toList`/`ofList`
  mediating) so that equality is decidable and recursions structural.
-/

namespace LcapyFourier

/-! ### Rational coefficients

SymPy's `Rational` numbers, re-implemented on `Int × Nat` with a
fuelled, hence kernel-reducible, gcd so that closed facts about the
engine can be settled by `decide`.  Values are kept normalised
(positive denominator, coprime) by the smart operations. -/

/-- Euclidean gcd with explicit fuel; `fuel = b + 1` always suffices. -/
def gcdF : Nat → Nat → Nat → Nat
  | 0, a, _ => a
  | fuel + 1, a, b => match b with | 0 => a | _ => gcdF fuel b (a % b)

/-- Gcd of two naturals via `gcdF`. -/
def gcdN (a b : Nat) : Nat := gcdF (b + 1) a b

/-- A rational number: numerator and (positive, coprime) denominator. -/
structure Q where
  n : Int
  d : Nat
  deriving DecidableEq, Repr

/-- Normalise a fraction. -/
def qmk (n : Int) (d : Nat) : Q :=
  if d = 0 then ⟨0, 1⟩
  else
    let g := gcdN n.natAbs d
    if g = 0 then ⟨0, 1⟩ else ⟨n / (g : Int), d / g⟩

instance (x : Nat) : OfNat Q x := ⟨⟨(x : Int), 1⟩⟩

instance : Neg Q := ⟨fun a => ⟨-a.n, a.d⟩⟩

instance : Add Q := ⟨fun a b => qmk (a.n * (b.d : Int) + b.n * (a.d : Int)) (a.d * b.d)⟩

instance : Mul Q := ⟨fun a b => qmk (a.n * b.n) (a.d * b.d)⟩

/-- Reciprocal (`0⁻¹ = 0`, as for SymPy/Rat). -/
def qinv (a : Q) : Q :=
  if 0 ≤ a.n then ⟨(a.d : Int), a.n.natAbs⟩ else ⟨-(a.d : Int), a.n.natAbs⟩

instance : Div Q := ⟨fun a b => a * qinv b⟩

/-- Natural power (componentwise: coprimality is preserved). -/
def qpowN (a : Q) (m : Nat) : Q := ⟨a.n ^ m, a.d ^ m⟩

/-- Integer power. -/
def qpow (a : Q) : Int → Q
  | .ofNat m => qpowN a m
  | .negSucc m => qpowN (qinv a) (m + 1)

/-- Absolute value. -/
def qabs (a : Q) : Q := ⟨|a.n|, a.d⟩

mutual
/-- SymPy expression trees, restricted to the constructors the module
`fourier.py` builds or inspects: rational numbers, symbols, the
imaginary unit, pi, sums, products, powers, `exp`/`cos`/`sin`,
`DiracDelta` (with derivative order), `Heaviside`, `sign`, `Abs`,
applied undefined functions such as `v(t)`, improper integrals over the
whole real line, and SymPy's unevaluated `FourierTransform` object. -/
inductive Ex : Type where
  | num (q : Q)
  | sym (s : String)
  | iu
  | epi
  | add (ts : ExList)
  | mul (fs : ExList)
  | pow (b e : Ex)
  | fexp (a : Ex)
  | fcos (a : Ex)
  | fsin (a : Ex)
  | delta (a : Ex) (n : Nat)
  | heav (a : Ex)
  | sgn (a : Ex)
  | fabs (a : Ex)
  | undef (f : String) (a : Ex)
  | integ (body : Ex) (v : String)
  | uneval (a : Ex)
  deriving DecidableEq, Repr

/-- Argument lists of `add`/`mul` nodes. -/
inductive ExList : Type where
  | nil
  | cons (e : Ex) (es : ExList)
  deriving DecidableEq, Repr
end

namespace ExList

/-- View an argument list as a `List Ex`. -/
def toList : ExList → List Ex
  | .nil => []
  | .cons e es => e :: toList es

/-- Build an argument list from a `List Ex`. -/
def ofList : List Ex → ExList
  | [] => .nil
  | e :: es => .cons e (ofList es)

@[simp] theorem toList_ofList : ∀ l : List Ex, (ofList l).toList = l
  | [] => rfl
  | e :: es => by simp [ofList, toList, toList_ofList es]

@[simp] theorem ofList_toList : ∀ l : ExList, ofList l.toList = l
  | .nil => rfl
  | .cons e es => by simp [ofList, toList, ofList_toList es]

end ExList

/-- Sum node from a plain list of terms. -/
def exAdd (l : List Ex) : Ex := Ex.add (ExList.ofList l)

/-- Product node from a plain list of factors. -/
def exMul (l : List Ex) : Ex := Ex.mul (ExList.ofList l)

namespace Ex

/-- `expr.args` of an `Add` node; any other node is a single term.
Models `as_ordered_terms` (argument order stands in for SymPy's
canonical term order). -/
def addArgs : Ex → List Ex
  | .add ts => ts.toList
  | e => [e]

/-- `expr.args` of a `Mul` node; any other node is a single factor.
Models `as_ordered_factors`. -/
def mulArgs : Ex → List Ex
  | .mul fs => fs.toList
  | e => [e]

mutual
/-- Occurrence of the symbol named `s` anywhere in the tree, as in
`expr.has(Symbol(s))`.  The bound variable of an `Integral` counts as an
occurrence, as it does for SymPy's `has`. -/
def hasSym : Ex → String → Bool
  | .num _, _ => false
  | .sym s', s => s' = s
  | .iu, _ => false
  | .epi, _ => false
  | .add ts, s => hasSymL ts s
  | .mul fs, s => hasSymL fs s
  | .pow b e, s => hasSym b s || hasSym e s
  | .fexp a, s => hasSym a s
  | .fcos a, s => hasSym a s
  | .fsin a, s => hasSym a s
  | .delta a _, s => hasSym a s
  | .heav a, s => hasSym a s
  | .sgn a, s => hasSym a s
  | .fabs a, s => hasSym a s
  | .undef _ a, s => hasSym a s
  | .integ b v, s => v = s || hasSym b s
  | .uneval a, s => hasSym a s

def hasSymL : ExList → String → Bool
  | .nil, _ => false
  | .cons e es, s => hasSym e s || hasSymL es s
end

mutual
/-- Occurrence of the imaginary unit, as in `expr.has(sym.I)`. -/
def hasI : Ex → Bool
  | .iu => true
  | .num _ => false
  | .sym _ => false
  | .epi => false
  | .add ts => hasIL ts
  | .mul fs => hasIL fs
  | .pow b e => hasI b || hasI e
  | .fexp a => hasI a
  | .fcos a => hasI a
  | .fsin a => hasI a
  | .delta a _ => hasI a
  | .heav a => hasI a
  | .sgn a => hasI a
  | .fabs a => hasI a
  | .undef _ a => hasI a
  | .integ b _ => hasI b
  | .uneval a => hasI a

def hasIL : ExList → Bool
  | .nil => false
  | .cons e es => hasI e || hasIL es
end

mutual
/-- Occurrence of an applied undefined function, as in
`expr.has(sym.function.AppliedUndef)`. -/
def hasUndef : Ex → Bool
  | .undef _ _ => true
  | .num _ => false
  | .sym _ => false
  | .iu => false
  | .epi => false
  | .add ts => hasUndefL ts
  | .mul fs => hasUndefL fs
  | .pow b e => hasUndef b || hasUndef e
  | .fexp a => hasUndef a
  | .fcos a => hasUndef a
  | .fsin a => hasUndef a
  | .delta a _ => hasUndef a
  | .heav a => hasUndef a
  | .sgn a => hasUndef a
  | .fabs a => hasUndef a
  | .integ b _ => hasUndef b
  | .uneval a => hasUndef a

def hasUndefL : ExList → Bool
  | .nil => false
  | .cons e es => hasUndef e || hasUndefL es
end

mutual
/-- Occurrence of a cosine node, as in `expr.has(sym.cos)`. -/
def hasCos : Ex → Bool
  | .fcos _ => true
  | .num _ => false
  | .sym _ => false
  | .iu => false
  | .epi => false
  | .add ts => hasCosL ts
  | .mul fs => hasCosL fs
  | .pow b e => hasCos b || hasCos e
  | .fexp a => hasCos a
  | .fsin a => hasCos a
  | .delta a _ => hasCos a
  | .heav a => hasCos a
  | .sgn a => hasCos a
  | .fabs a => hasCos a
  | .undef _ a => hasCos a
  | .integ b _ => hasCos b
  | .uneval a => hasCos a

def hasCosL : ExList → Bool
  | .nil => false
  | .cons e es => hasCos e || hasCosL es
end

mutual
/-- Occurrence of a sine node, as in `expr.has(sym.sin)`. -/
def hasSin : Ex → Bool
  | .fsin _ => true
  | .num _ => false
  | .sym _ => false
  | .iu => false
  | .epi => false
  | .add ts => hasSinL ts
  | .mul fs => hasSinL fs
  | .pow b e => hasSin b || hasSin e
  | .fexp a => hasSin a
  | .fcos a => hasSin a
  | .delta a _ => hasSin a
  | .heav a => hasSin a
  | .sgn a => hasSin a
  | .fabs a => hasSin a
  | .undef _ a => hasSin a
  | .integ b _ => hasSin b
  | .uneval a => hasSin a

def hasSinL : ExList → Bool
  | .nil => false
  | .cons e es => hasSin e || hasSinL es
end

mutual
/-- Occurrence of any free symbol.  Models the constancy test
`scale.is_constant()` used by `scale_shift`: a SymPy expression with a
free symbol is not constant, an expression built from numbers, `I` and
`pi` alone is. -/
def hasAnySym : Ex → Bool
  | .sym _ => true
  | .num _ => false
  | .iu => false
  | .epi => false
  | .add ts => hasAnySymL ts
  | .mul fs => hasAnySymL fs
  | .pow b e => hasAnySym b || hasAnySym e
  | .fexp a => hasAnySym a
  | .fcos a => hasAnySym a
  | .fsin a => hasAnySym a
  | .delta a _ => hasAnySym a
  | .heav a => hasAnySym a
  | .sgn a => hasAnySym a
  | .fabs a => hasAnySym a
  | .undef _ a => hasAnySym a
  | .integ b _ => hasAnySym b
  | .uneval a => hasAnySym a

def hasAnySymL : ExList → Bool
  | .nil => false
  | .cons e es => hasAnySym e || hasAnySymL es
end

mutual
/-- Number of `Integral` nodes in the tree. -/
def countInteg : Ex → Nat
  | .integ b _ => countInteg b + 1
  | .num _ => 0
  | .sym _ => 0
  | .iu => 0
  | .epi => 0
  | .add ts => countIntegL ts
  | .mul fs => countIntegL fs
  | .pow b e => countInteg b + countInteg e
  | .fexp a => countInteg a
  | .fcos a => countInteg a
  | .fsin a => countInteg a
  | .delta a _ => countInteg a
  | .heav a => countInteg a
  | .sgn a => countInteg a
  | .fabs a => countInteg a
  | .undef _ a => countInteg a
  | .uneval a => countInteg a

def countIntegL : ExList → Nat
  | .nil => 0
  | .cons e es => countInteg e + countIntegL es
end

end Ex

open Ex

/-- Sum smart constructor, modelling SymPy `Add` auto-evaluation on the
fragment used here: one-level flattening of nested sums, folding of all
rational number terms into one (placed last, where SymPy's term order
puts a pure number), and collapse of empty/singleton argument lists. -/
def addE (l : List Ex) : Ex :=
  let flat := l.flatMap addArgs
  let q : Q := flat.foldl (fun acc e => match e with | .num q' => acc + q' | _ => acc) 0
  let rest := flat.filter (fun e => match e with | .num _ => false | _ => true)
  let args := rest ++ (if q = 0 then [] else [Ex.num q])
  match args with
  | [] => Ex.num 0
  | [x] => x
  | xs => exAdd xs

/-- Non-recursive smart power used while rebuilding a product: unit
exponents, integer powers of rationals, and the `I` power cycle
(`I**2 = -1`, `I**3 = -I`, `I**-1 = -I`). -/
def mkPow (b e : Ex) : Ex :=
  if e = Ex.num 1 then b
  else if e = Ex.num 0 then Ex.num 1
  else
    match b, e with
    | .num q, .num k => if k.d = 1 then Ex.num (qpow q k.n) else Ex.pow b e
    | .iu, .num k =>
        if k.d = 1 then
          match (k.n % 4 : Int) with
          | 0 => Ex.num 1
          | 1 => Ex.iu
          | 2 => Ex.num (-1)
          | _ => exMul [Ex.num (-1), Ex.iu]
        else Ex.pow b e
    | _, _ => Ex.pow b e

/-- Insert a base/exponent pair into an ordered association list of
factors, adding exponents of an equal base (SymPy `Mul` gathering). -/
def insertBase (bs : List (Ex × Ex)) (b e : Ex) : List (Ex × Ex) :=
  match bs with
  | [] => [(b, e)]
  | (b', e') :: rest =>
      if b' = b then (b', addE [e', e]) :: rest
      else (b', e') :: insertBase rest b e

/-- Fold a flattened factor list into a rational coefficient and an
ordered base/exponent list. -/
def gatherFactors : List Ex → Q → List (Ex × Ex) → Q × List (Ex × Ex)
  | [], c, bs => (c, bs)
  | f :: rest, c, bs =>
      match f with
      | .num q => gatherFactors rest (c * q) bs
      | .pow b e => gatherFactors rest c (insertBase bs b e)
      | x => gatherFactors rest c (insertBase bs x (Ex.num 1))

/-- Rebuild the factor list from gathered base/exponent pairs, folding
numeric and `I`-cycle contributions into the coefficient. -/
def rebuildFactors : Q → List (Ex × Ex) → Q × List Ex
  | c, [] => (c, [])
  | c, (b, e) :: rest =>
      if e = Ex.num 0 then rebuildFactors c rest
      else
        match b, e with
        | .iu, .num k =>
            if k.d = 1 then
              let r := (k.n % 4 : Int)
              let c' := if r = 2 || r = 3 then -c else c
              let out := rebuildFactors c' rest
              if r = 1 || r = 3 then (out.1, Ex.iu :: out.2)
              else out
            else
              let out := rebuildFactors c rest
              (out.1, Ex.pow Ex.iu e :: out.2)
        | .num q, .num k =>
            if k.d = 1 then rebuildFactors (c * qpow q k.n) rest
            else
              let out := rebuildFactors c rest
              (out.1, mkPow b e :: out.2)
        | _, _ =>
            let out := rebuildFactors c rest
            (out.1, mkPow b e :: out.2)

/-- Product smart constructor, modelling SymPy `Mul` auto-evaluation on
the fragment used here: one-level flattening, folding of rational
factors into a leading coefficient, combination of powers with an equal
base (summing exponents), reduction of integer powers of `I`, and
collapse of empty/singleton argument lists. -/
def mulE (l : List Ex) : Ex :=
  let flat := l.flatMap mulArgs
  let g := gatherFactors flat 1 []
  let r := rebuildFactors g.1 g.2
  if r.1 = 0 then Ex.num 0
  else
    match r.2 with
    | [] => Ex.num r.1
    | fs =>
        if r.1 = 1 then
          match fs with
          | [x] => x
          | xs => exMul xs
        else exMul (Ex.num r.1 :: fs)

/-- Power smart constructor: an integer power of a product distributes
over the factors (SymPy `Pow` auto-evaluation), otherwise `mkPow`. -/
def powE (b e : Ex) : Ex :=
  match b, e with
  | .mul fs, .num k =>
      if k.d = 1 then mulE (fs.toList.map (fun x => mkPow x (Ex.num k)))
      else mkPow b e
  | _, _ => mkPow b e

/-- Division `a / b`, as SymPy computes it: `a * b**(-1)`. -/
def divE (a b : Ex) : Ex :=
  mulE [a, powE b (Ex.num (-1))]

/-- Subtraction `a - b`, as SymPy computes it: `a + (-1)*b`. -/
def subE (a b : Ex) : Ex :=
  addE [a, mulE [Ex.num (-1), b]]

/-- `exp` smart constructor (`exp(0) = 1`). -/
def expE (a : Ex) : Ex :=
  if a = Ex.num 0 then Ex.num 1 else Ex.fexp a

/-- `Abs` smart constructor on the evaluated cases the module meets:
absolute values of rationals and of `pi` evaluate. -/
def absE (a : Ex) : Ex :=
  match a with
  | .num q => Ex.num (qabs q)
  | .epi => Ex.epi
  | x => Ex.fabs x

/-! ### A printer standing in for Python `str(expr)`

The module's error messages embed `str(expr)`; only the fact that the
message names the expression matters, so any injective-enough printer
serves. -/

def strSlash : String := "/"
def strI : String := "I"
def strPi : String := "pi"
def strPlus : String := " + "
def strStar : String := "*"
def strLP : String := "("
def strRP : String := ")"
def strPowOp : String := "**"
def strExpN : String := "exp"
def strCosN : String := "cos"
def strSinN : String := "sin"
def strDiracN : String := "DiracDelta"
def strHeavN : String := "Heaviside"
def strSignN : String := "sign"
def strAbsN : String := "Abs"
def strComma : String := ", "
def strIntegralN : String := "Integral"
def strIntegTail : String := ", -oo, oo))"
def strIntegMid : String := ", ("
def strFTN : String := "FourierTransform"

mutual
/-- Rendering of an expression, modelling Python `str(expr)`. -/
def toStr : Ex → String
  | .num q => if q.d = 1 then toString q.n else toString q.n ++ strSlash ++ toString q.d
  | .sym s => s
  | .iu => strI
  | .epi => strPi
  | .add ts => strLP ++ String.intercalate strPlus (toStrL ts) ++ strRP
  | .mul fs => strLP ++ String.intercalate strStar (toStrL fs) ++ strRP
  | .pow b e => strLP ++ toStr b ++ strPowOp ++ toStr e ++ strRP
  | .fexp a => strExpN ++ strLP ++ toStr a ++ strRP
  | .fcos a => strCosN ++ strLP ++ toStr a ++ strRP
  | .fsin a => strSinN ++ strLP ++ toStr a ++ strRP
  | .delta a n => strDiracN ++ strLP ++ toStr a ++
      (if n = 0 then strRP else strComma ++ toString n ++ strRP)
  | .heav a => strHeavN ++ strLP ++ toStr a ++ strRP
  | .sgn a => strSignN ++ strLP ++ toStr a ++ strRP
  | .fabs a => strAbsN ++ strLP ++ toStr a ++ strRP
  | .undef g a => g ++ strLP ++ toStr a ++ strRP
  | .integ b v => strIntegralN ++ strLP ++ toStr b ++ strIntegMid ++ v ++ strIntegTail
  | .uneval a => strFTN ++ strLP ++ toStr a ++ strRP

def toStrL : ExList → List String
  | .nil => []
  | .cons e es => toStr e :: toStrL es
end

/-! ### Substitution and rewriting -/

mutual
/-- `expr.subs(Symbol(s), v)`: replace every free occurrence of the
symbol, rebuilding arithmetic nodes with the auto-evaluating smart
constructors as SymPy does.  Subtrees without the symbol are returned
untouched, and an `Integral` binding the symbol shadows it. -/
def subsSym : Ex → String → Ex → Ex
  | e, s, v =>
    if hasSym e s = false then e
    else
      match e with
      | .sym s' => if s' = s then v else Ex.sym s'
      | .add ts => addE (subsSymL ts s v)
      | .mul fs => mulE (subsSymL fs s v)
      | .pow b e2 => powE (subsSym b s v) (subsSym e2 s v)
      | .fexp a => expE (subsSym a s v)
      | .fcos a => Ex.fcos (subsSym a s v)
      | .fsin a => Ex.fsin (subsSym a s v)
      | .delta a n => Ex.delta (subsSym a s v) n
      | .heav a => Ex.heav (subsSym a s v)
      | .sgn a => Ex.sgn (subsSym a s v)
      | .fabs a => absE (subsSym a s v)
      | .undef g a => Ex.undef g (subsSym a s v)
      | .integ b w => if w = s then Ex.integ b w else Ex.integ (subsSym b s v) w
      | .uneval a => Ex.uneval (subsSym a s v)
      | x => x

def subsSymL : ExList → String → Ex → List Ex
  | .nil, _, _ => []
  | .cons e es, s, v => subsSym e s v :: subsSymL es s v
end

mutual
/-- `expr.rewrite(sym.exp)`: replace every cosine/sine by its complex
exponential form, `cos x = (exp(I x) + exp(-I x))/2` and
`sin x = -I (exp(I x) - exp(-I x))/2`, leaving other nodes as they
are. -/
def rwExp : Ex → Ex
  | .fcos a =>
      divE (addE [expE (mulE [Ex.iu, rwExp a]),
                  expE (mulE [Ex.num (-1), Ex.iu, rwExp a])]) (Ex.num 2)
  | .fsin a =>
      mulE [Ex.num (-1), Ex.iu,
        divE (subE (expE (mulE [Ex.iu, rwExp a]))
                   (expE (mulE [Ex.num (-1), Ex.iu, rwExp a]))) (Ex.num 2)]
  | .add ts => Ex.add (ExList.ofList (rwExpL ts))
  | .mul fs => Ex.mul (ExList.ofList (rwExpL fs))
  | .pow b e => Ex.pow (rwExp b) (rwExp e)
  | .fexp a => Ex.fexp (rwExp a)
  | .delta a n => Ex.delta (rwExp a) n
  | .heav a => Ex.heav (rwExp a)
  | .sgn a => Ex.sgn (rwExp a)
  | .fabs a => Ex.fabs (rwExp a)
  | .undef g a => Ex.undef g (rwExp a)
  | .integ b v => Ex.integ (rwExp b) v
  | .uneval a => Ex.uneval (rwExp a)
  | e => e

def rwExpL : ExList → List Ex
  | .nil => []
  | .cons e es => rwExp e :: rwExpL es
end

/-- Cartesian products of the term lists of a factor list, used to
distribute a product over its sum factors. -/
def crossTerms : List Ex → List (List Ex)
  | [] => [[]]
  | x :: rest => (addArgs x).flatMap (fun τ => (crossTerms rest).map (fun l => τ :: l))

mutual
/-- `expr.expand()`, restricted to the algebraic distribution of
products over sums that the transform pipeline relies on. -/
def expandE : Ex → Ex
  | .add ts => addE (expandL ts)
  | .mul fs => addE ((crossTerms (expandL fs)).map mulE)
  | e => e

def expandL : ExList → List Ex
  | .nil => []
  | .cons e es => expandE e :: expandL es
end

/-! ### The transform engine, mirroring `fourier.py` -/

def strCouldNot : String := "Could not compute Fourier transform for "
def strCannot : String := "Cannot compute Fourier transform of "
def strWeirdA : String := "Weird function "
def strWeirdB : String := " not of "
def strExpecting : String := "Expecting function for "
def strNoContainA : String := "Expression does not contain "
def strColon : String := ": "
def strTooMany : String := "Expression has too many terms: "
def strNotSS : String := "Expression not a scale and shift: "
def strIndexErr : String := "list index out of range"
def strFuel : String := "recursion limit exceeded"
def strNu : String := "nu"
def strTau : String := "tau"
def strUnderscore : String := "_"

/-- `factor_const(expr, t)`: split the ordered factors into the product
of those free of `t` (the `const`) and the product of the rest. -/
def factor_const (expr : Ex) (t : String) : Ex × Ex :=
  (mulE ((mulArgs expr).filter (fun x => !(hasSym x t))),
   mulE ((mulArgs expr).filter (fun x => hasSym x t)))

/-- `scale.is_constant()`: an expression with a free symbol is not a
constant; one built from numbers, `I` and `pi` alone is. -/
def is_constant (e : Ex) : Bool := !(hasAnySym e)

/-- `scale_shift(expr, t)`: decompose a presumed-affine expression into
`(scale, shift)`.  A single term is divided by `t` with no constancy
check (the source omits it there); two terms require the leading
coefficient to be constant; more than two terms fail. -/
def scale_shift (expr : Ex) (t : String) : Except String (Ex × Ex) :=
  if hasSym expr t = false then
    .error (strNoContainA ++ t ++ strColon ++ toStr expr)
  else
    match addArgs expr with
    | [t0] => .ok (divE t0 (Ex.sym t), Ex.num 0)
    | [t0, t1] =>
        let scale := divE t0 (Ex.sym t)
        if is_constant scale = false then .error (strNotSS ++ toStr expr)
        else .ok (scale, t1)
    | _ => .error (strTooMany ++ toStr expr)

/-- The external general solver `sym.fourier_transform`, taken as a
parameter: given the expression, the integration variable and the
(possibly negated) target expression, it returns either a closed form
or an unevaluated `FourierTransform` object. -/
abbrev Solver := Ex → String → Ex → Ex

/-- `fourier_sympy(expr, t, f)`: call the general solver; a zero result
for a nonzero input (a known SymPy defect) or an unevaluated transform
object is a failure. -/
def fourier_sympy (S : Solver) (expr : Ex) (t : String) (sf : Ex) : Except String Ex :=
  let result := S expr t sf
  if expr ≠ Ex.num 0 ∧ result = Ex.num 0 then .error (strCouldNot ++ toStr expr)
  else
    match result with
    | .uneval _ => .error (strCouldNot ++ toStr expr)
    | r => .ok r

/-- `name[0].upper() + name[1:]`. -/
def upperFirst (s : String) : String :=
  match s.data with
  | [] => s
  | c :: cs => String.mk (Char.toUpper c :: cs)

/-- `name[0].lower() + name[1:]`. -/
def lowerFirst (s : String) : String :=
  match s.data with
  | [] => s
  | c :: cs => String.mk (Char.toLower c :: cs)

/-- `fourier_func(expr, t, f, inverse)`: transform a single applied
undefined function with a presumed-affine argument, renaming it to its
dual-domain counterpart by changing the case of the leading character,
scaling the new variable by the reciprocal scale, dividing by the
absolute scale, and — for a nonzero shift (negated in the inverse
direction) — multiplying by the phase factor
`exp(2*I*pi*f*shift/scale)`. -/
def fourier_func (expr : Ex) (t f : String) (inverse : Bool) : Except String Ex :=
  match expr with
  | .undef name arg =>
      match scale_shift arg t with
      | .error m => .error m
      | .ok sc =>
          let scale := sc.1
          let shift := sc.2
          let fname := if inverse then lowerFirst name else upperFirst name
          let result := mulE [subsSym (Ex.undef fname (Ex.sym f)) f (divE (Ex.sym f) scale),
                              powE (absE scale) (Ex.num (-1))]
          if shift = Ex.num 0 then .ok result
          else
            let shift2 := if inverse then mulE [Ex.num (-1), shift] else shift
            .ok (mulE [result,
                  expE (mulE [Ex.num 2, Ex.iu, Ex.epi, Ex.sym f, shift2,
                              powE scale (Ex.num (-1))])])
  | _ => .error (strExpecting ++ toStr expr)

/-- Walk the ordered factors, separating applied undefined functions
(whose argument must be exactly the domain variable) from the rest, in
order; a function of anything else fails as a weird function. -/
def collectUndefs : List Ex → String → Except String (List Ex × List Ex)
  | [], _ => .ok ([], [])
  | x :: xs, t =>
      match x with
      | .undef g a =>
          if a = Ex.sym t then
            match collectUndefs xs t with
            | .error m => .error m
            | .ok p => .ok (Ex.undef g a :: p.1, p.2)
          else .error (strWeirdA ++ toStr (Ex.undef g a) ++ strWeirdB ++ t)
      | e =>
          match collectUndefs xs t with
          | .error m => .error m
          | .ok p => .ok (p.1, e :: p.2)

/-- `.args[0]` of the accumulated product of exponential factors. -/
def exArgs0 : Ex → Ex
  | .fexp a => a
  | .mul fs => match fs.toList with | x :: _ => x | [] => Ex.num 1
  | .pow b _ => b
  | e => e

/-- `factor.is_Function and factor.func == sym.exp`. -/
def isExpF : Ex → Bool
  | .fexp _ => true
  | _ => false

mutual
/-- `fourier_term(expr, t, f, inverse)`: transform one additive term.
The `fuel` argument bounds the (shallow) mutual recursion with
`fourier_function`; Python needs none because the recursion terminates
structurally on these inputs. -/
def fourier_term (S : Solver) : Nat → Ex → String → String → Bool → Except String Ex
  | 0, _, _, _, _ => .error strFuel
  | fuel + 1, expr, t, f, inverse =>
    if hasUndef expr then fourier_function S fuel expr t f inverse
    else
    let sf : Ex := if inverse then mulE [Ex.num (-1), Ex.sym f] else Ex.sym f
    if hasSym expr t = false then .ok (mulE [expr, Ex.delta (Ex.sym f) 0])
    else
    let factors := mulArgs expr
    let const := mulE (factors.filter (fun x => !(hasSym x t)))
    let expsL := factors.filter (fun x => hasSym x t && isExpF x)
    let other := mulE (factors.filter (fun x => hasSym x t && !(isExpF x)))
    if other ≠ Ex.num 1 ∧ expsL = [] then
      if other = Ex.sym t then
        .ok (mulE [const, Ex.iu, Ex.num 2, Ex.epi, Ex.delta (Ex.sym f) 1])
      else if other = Ex.pow (Ex.sym t) (Ex.num 2) then
        .ok (mulE [const, powE (mulE [Ex.iu, Ex.num 2, Ex.epi]) (Ex.num 2),
                   Ex.delta (Ex.sym f) 2])
      else
        -- compensation for the SymPy defect that drops the implicit
        -- Heaviside from one-sided exponentials
        match other with
        | .pow foo e2 =>
            if e2 = Ex.num (-1) then
              match foo with
              | .add ts =>
                  match ts.toList with
                  | x :: y :: _ =>
                      if hasSym y t then
                        let bar := divE y (Ex.sym t)
                        if hasSym bar t = false ∧ hasI bar then
                          let av := divE (mulE [Ex.num (-1), x, Ex.num 2, Ex.epi, Ex.iu]) bar
                          .ok (mulE [const, expE (mulE [Ex.num (-1), av, sf]),
                                     Ex.heav (mulE [sf, Ex.sgn av])])
                        else fourier_sympy S expr t sf
                      else fourier_sympy S expr t sf
                  | _ => fourier_sympy S expr t sf
              | _ => fourier_sympy S expr t sf
            else fourier_sympy S expr t sf
        | _ => fourier_sympy S expr t sf
    else
      match expsL with
      | [] => .error strIndexErr  -- Python would fail on `S.One.args[0]`; unreachable since expr depends on t
      | _ =>
        let exps := mulE expsL
        let args := exArgs0 exps
        let foo := divE args (Ex.sym t)
        if hasSym foo t then fourier_sympy S expr t sf
        else if hasI foo then  -- `exps != 1` holds here since expsL is nonempty
          .ok (mulE [const,
                Ex.delta (subE sf (divE foo (mulE [Ex.iu, Ex.num 2, Ex.epi]))) 0])
        else fourier_sympy S expr t sf

/-- The iterated convolution loop of `fourier_function`: for each
further piece, substitute `f ↦ f - nu` in the running result,
`f ↦ nu` in the piece's transform, and integrate the product over the
whole real line in the fresh dummy `nu` (`nu_1`, ... beyond the
first; `tau` for the inverse direction). -/
def convLoop (S : Solver) : Nat → String → String → String → Bool → Nat → Ex →
    List Ex → Except String Ex
  | _, _, _, _, _, _, result, [] => .ok result
  | 0, _, _, _, _, _, _, _ :: _ => .error strFuel
  | fuel + 1, dummy, t, f, inverse, m, result, e :: rest =>
      let nuName := if m = 0 then dummy else dummy ++ strUnderscore ++ toString m
      match fourier_term S fuel e t f inverse with
      | .error msg => .error msg
      | .ok r2 =>
          let nu := Ex.sym nuName
          convLoop S fuel dummy t f inverse (m + 1)
            (Ex.integ (mulE [subsSym result f (subE (Ex.sym f) nu), subsSym r2 f nu]) nuName)
            rest

/-- `fourier_function(expr, t, f, inverse)`: handle a term built from
applied undefined functions — a lone application goes to
`fourier_func`, a product of applications (and at most one remaining
`t`-dependent factor) becomes an iterated convolution integral; a
function application surviving in the non-function remainder (e.g. a
reciprocal) fails. -/
def fourier_function (S : Solver) : Nat → Ex → String → String → Bool → Except String Ex
  | 0, _, _, _, _ => .error strFuel
  | fuel + 1, expr, t, f, inverse =>
  if hasUndef expr = false then .error (strCouldNot ++ toStr expr)
  else
  let cr := factor_const expr t
  let const := cr.1
  let expr2 := cr.2
  match expr2 with
  | .undef name arg =>
      match fourier_func (Ex.undef name arg) t f inverse with
      | .error m => .error m
      | .ok r => .ok (mulE [r, const])
  | _ =>
    -- `expr = expr.subs(tsym, t)` unifies symbol assumptions: the identity here
    match collectUndefs (mulArgs expr2) t with
    | .error m => .error m
    | .ok p =>
      let undefs := p.1
      let rest := mulE p.2
      if hasUndef rest then .error (strCannot ++ toStr rest)
      else
      let exprs := if hasSym rest t then undefs ++ [rest] else undefs
      let rest2 := if hasSym rest t then Ex.num 1 else rest
      match exprs with
      | [] => .error strIndexErr  -- Python IndexError on `exprs[0]`
      | e0 :: restE =>
        match fourier_term S fuel e0 t f inverse with
        | .error m => .error m
        | .ok r0 =>
          let result := mulE [r0, rest2]
          match restE with
          | [] => .ok (mulE [result, const])
          | _ =>
            let dummy := if inverse then strTau else strNu
            match convLoop S fuel dummy t f inverse 0 result restE with
            | .error m => .error m
            | .ok r => .ok (mulE [r, const])
end

/-- The per-term summation loop of `fourier_transform`: starts from 0,
adds each term's transform, and propagates the first failure. -/
def sumTermsE (S : Solver) (fuel : Nat) (t f : String) (inverse : Bool) :
    Ex → List Ex → Except String Ex
  | acc, [] => .ok acc
  | acc, term :: rest =>
      match fourier_term S fuel term t f inverse with
      | .error m => .error m
      | .ok r => sumTermsE S fuel t f inverse (addE [acc, r]) rest

/-- Which of the modeled exceptions the source's `except ValueError`
handler catches: every failure the engine raises is a `ValueError`
except the `IndexError` escaping from `exprs[0]` (and the fuel
sentinel, the model's stand-in for a `RecursionError`), which propagate
uncaught. -/
def caughtValueError (m : String) : Bool :=
  if m = strIndexErr ∨ m = strFuel then false else true

/-- The cache-miss computation of `fourier_transform`: swap the
variables for the inverse direction, rewrite sinusoids to exponentials,
expand, transform term by term, and report any `ValueError` against the
original expression; any other exception (the reachable `IndexError`)
escapes the `except ValueError` handler unchanged. -/
def fourier_transform_core (S : Solver) (fuel : Nat) (expr : Ex) (t f : String)
    (inverse : Bool) : Except String Ex :=
  let tv := if inverse then f else t
  let fv := if inverse then t else f
  -- `expr = expr.replace(var, t)` canonicalises symbol assumptions: the identity here
  let orig := expr
  let expr2 := if hasCos expr || hasSin expr then rwExp expr else expr
  let terms := addArgs (expandE expr2)
  match sumTermsE S fuel tv fv inverse (Ex.num 0) terms with
  | .error m => if caughtValueError m then .error (strCouldNot ++ toStr orig) else .error m
  | .ok r => .ok r

/-- Keys of the process-wide cache: `(expr, t, f, inverse)`. -/
abbrev Key := Ex × String × String × Bool

/-- The `fourier_cache` dictionary, as an association list threaded
explicitly. -/
abbrev Cache := List (Key × Ex)

/-- Dictionary lookup. -/
def lookupC : Cache → Key → Option Ex
  | [], _ => none
  | kv :: rest, key => if kv.1 = key then some kv.2 else lookupC rest key

/-- `fourier_transform(expr, t, f, inverse)` with the cache as explicit
state: return a hit unchanged; otherwise compute, memoize a success,
and leave the cache untouched on failure (the source stores no failure
markers). -/
def fourier_transform (S : Solver) (fuel : Nat) (cache : Cache) (expr : Ex)
    (t f : String) (inverse : Bool) : Except String Ex × Cache :=
  let key : Key := (expr, t, f, inverse)
  match lookupC cache key with
  | some v => (.ok v, cache)
  | none =>
      match fourier_transform_core S fuel expr t f inverse with
      | .error m => (.error m, cache)
      | .ok r => (.ok r, (key, r) :: cache)

/-- The caches reachable in a process that starts empty and performs
any sequence of transform calls (with the one external solver and a
fixed recursion budget). -/
inductive Reaches (S : Solver) (fuel : Nat) : Cache → Prop where
  | nil : Reaches S fuel []
  | step : ∀ c e t f inv, Reaches S fuel c →
      Reaches S fuel (fourier_transform S fuel c e t f inv).2

/-- A solver that always reports failure by returning the unevaluated
transform object; used to instantiate solver-independent facts. -/
def unresolvedSolver : Solver := fun e _ _ => Ex.uneval e

instance {ε α : Type} [DecidableEq ε] [DecidableEq α] : DecidableEq (Except ε α) :=
  fun a b =>
  match a, b with
  | .ok x, .ok y => decidable_of_iff (x = y) (by simp)
  | .error x, .error y => decidable_of_iff (x = y) (by simp)
  | .ok _, .error _ => isFalse (by intro h; cases h)
  | .error _, .ok _ => isFalse (by intro h; cases h)

/-! ### Symbol-name constants used in the statements -/

def tN : String := "t"
def fN : String := "f"
def aN : String := "a"
def bN : String := "b"
def cN : String := "c"
def vN : String := "v"
def yN : String := "y"
def VN : String := "V"
def YN : String := "Y"

/-! ### Arithmetic evaluation helpers -/

theorem q_add_def (a b : Q) :
    a + b = qmk (a.n * (b.d : Int) + b.n * (a.d : Int)) (a.d * b.d) := rfl

theorem q_mul_def (a b : Q) : a * b = qmk (a.n * b.n) (a.d * b.d) := rfl

theorem q_neg_def (a : Q) : -a = Q.mk (-a.n) a.d := rfl

theorem q_ofNat_def (x : Nat) : (OfNat.ofNat x : Q) = Q.mk (x : Int) 1 := rfl

theorem qpow_neg_one (a : Q) : qpow a (-1) = qinv a := by
  have h1 : qpow a (-1) = qpowN (qinv a) 1 := rfl
  simp [h1, qpowN]

theorem qpow_two (a : Q) : qpow a 2 = Q.mk (a.n ^ 2) (a.d ^ 2) := rfl

theorem mulE_nil : mulE [] = Ex.num 1 := by decide

theorem mulE_single_fexp (z : Ex) : mulE [Ex.fexp z] = Ex.fexp z := by
  simp [mulE, mulArgs, List.flatMap, gatherFactors, insertBase, rebuildFactors, mkPow,
        qmk, gcdN, gcdF, q_mul_def, q_ofNat_def]

theorem mulE_one_delta (z : Ex) (n : Nat) : mulE [Ex.num 1, Ex.delta z n] = Ex.delta z n := by
  simp [mulE, mulArgs, List.flatMap, gatherFactors, insertBase, rebuildFactors, mkPow,
        qmk, gcdN, gcdF, q_mul_def, q_ofNat_def]

theorem mulE_undef_one (g : String) (z : Ex) :
    mulE [Ex.undef g z, Ex.num 1] = Ex.undef g z := by
  simp [mulE, mulArgs, List.flatMap, gatherFactors, insertBase, rebuildFactors, mkPow,
        qmk, gcdN, gcdF, q_mul_def, q_ofNat_def]

theorem addE_zero_delta (z : Ex) (n : Nat) :
    addE [Ex.num 0, Ex.delta z n] = Ex.delta z n := by
  simp [addE, addArgs, List.flatMap, List.filter, List.foldl, exAdd,
        q_add_def, q_ofNat_def, qmk, gcdN, gcdF]

theorem addE_zero_mul (fs : ExList) :
    addE [Ex.num 0, Ex.mul fs] = Ex.mul fs := by
  simp [addE, addArgs, List.flatMap, List.filter, List.foldl, exAdd,
        q_add_def, q_ofNat_def, qmk, gcdN, gcdF]

theorem addE_zero_undef (g : String) (z : Ex) :
    addE [Ex.num 0, Ex.undef g z] = Ex.undef g z := by
  simp [addE, addArgs, List.flatMap, List.filter, List.foldl, exAdd,
        q_add_def, q_ofNat_def, qmk, gcdN, gcdF]

theorem addE_two_mul (fs gs : ExList) :
    addE [Ex.mul fs, Ex.mul gs] = exAdd [Ex.mul fs, Ex.mul gs] := by
  simp [addE, addArgs, List.flatMap, List.filter, List.foldl, exAdd,
        q_add_def, q_ofNat_def, qmk, gcdN, gcdF]

theorem subsSym_undef_sym (g s : String) (v : Ex) :
    subsSym (Ex.undef g (Ex.sym s)) s v = Ex.undef g v := by
  simp [subsSym, hasSym]

/-! ### The claims -/

/-- Claim C1, counterexample: for the real positive constant `a = 1`,
`forward_transform(exp(-i*2*pi*1*t), t, f)` evaluates to
`DiracDelta(f + 1)`, which is not the claimed `DiracDelta(f - 1)`: the
pure complex exponential `exp(-i*2*pi*a*t)` maps to the impulse shifted
to `f = -a`, not to `f = a`. -/
theorem c1_counterexample :
    (fourier_transform unresolvedSolver 9 []
        (Ex.fexp (mulE [Ex.num (-1), Ex.iu, Ex.num 2, Ex.epi, Ex.num 1, Ex.sym tN]))
        tN fN false).1
      = .ok (Ex.delta (exAdd [Ex.sym fN, Ex.num 1]) 0)
    ∧ (fourier_transform unresolvedSolver 9 []
        (Ex.fexp (mulE [Ex.num (-1), Ex.iu, Ex.num 2, Ex.epi, Ex.num 1, Ex.sym tN]))
        tN fN false).1
      ≠ .ok (Ex.delta (subE (Ex.sym fN) (Ex.num 1)) 0) := by
  decide

/-- Claim C2, counterexample: for the variable-free sum `a = b + c`,
`forward_transform(b + c, t, f)` is the term-wise sum
`b*DiracDelta(f) + c*DiracDelta(f)`, which is not structurally the
claimed `(b + c)*DiracDelta(f)`. -/
theorem c2_counterexample :
    (fourier_transform unresolvedSolver 9 [] (exAdd [Ex.sym bN, Ex.sym cN]) tN fN false).1
      = .ok (exAdd [exMul [Ex.sym bN, Ex.delta (Ex.sym fN) 0],
                    exMul [Ex.sym cN, Ex.delta (Ex.sym fN) 0]])
    ∧ (fourier_transform unresolvedSolver 9 [] (exAdd [Ex.sym bN, Ex.sym cN]) tN fN false).1
      ≠ .ok (mulE [exAdd [Ex.sym bN, Ex.sym cN], Ex.delta (Ex.sym fN) 0]) := by
  decide

/-- Claim C4: the input `v(t**2)` — an abstract function applied to an
argument that is not affine in `t` — does NOT make the forward
transform fail.  `scale_shift` omits the constancy check in its
single-term branch, so `t**2/t = t` silently becomes the "scale" and
the call returns the meaningless `V(f/t)*Abs(t)**-1`, whose result
still contains the time variable `t`. -/
theorem c4_eval_thm :
    (fourier_transform unresolvedSolver 9 []
        (Ex.undef vN (Ex.pow (Ex.sym tN) (Ex.num 2))) tN fN false).1
      = .ok (exMul [Ex.undef VN (exMul [Ex.sym fN, Ex.pow (Ex.sym tN) (Ex.num (-1))]),
                    Ex.pow (Ex.fabs (Ex.sym tN)) (Ex.num (-1))])
    ∧ hasSym (exMul [Ex.undef VN (exMul [Ex.sym fN, Ex.pow (Ex.sym tN) (Ex.num (-1))]),
                    Ex.pow (Ex.fabs (Ex.sym tN)) (Ex.num (-1))]) tN = true := by
  decide

/-- Claim C5, counterexample: `v(a*t + b)` has a variable-free (`t`-free)
nonzero scale `a` and a variable-free shift `b`, yet the forward
transform fails instead of returning `V(f/a)/|a|` times a phase factor:
`scale_shift` rejects any symbolic scale, since `a.is_constant()` is
false for a free symbol. -/
theorem c5_counterexample :
    (fourier_transform unresolvedSolver 9 []
        (Ex.undef vN (exAdd [exMul [Ex.sym aN, Ex.sym tN], Ex.sym bN])) tN fN false).1
      = .error (strCouldNot ++
          toStr (Ex.undef vN (exAdd [exMul [Ex.sym aN, Ex.sym tN], Ex.sym bN]))) := by
  decide

/-- Claim C6: `forward_transform(v(t)*y(t), t, f)` is exactly one
improper integral over the whole real line in the fresh dummy `nu` (a
symbol not occurring in the input), whose integrand is the product of
the dual-domain renamed functions `V(f - nu)` and `Y(nu)`. -/
theorem c6_thm :
    (fourier_transform unresolvedSolver 9 []
        (exMul [Ex.undef vN (Ex.sym tN), Ex.undef yN (Ex.sym tN)]) tN fN false).1
      = .ok (Ex.integ (exMul [Ex.undef VN (exAdd [Ex.sym fN, exMul [Ex.num (-1), Ex.sym strNu]]),
                              Ex.undef YN (Ex.sym strNu)]) strNu)
    ∧ countInteg (Ex.integ (exMul [Ex.undef VN (exAdd [Ex.sym fN, exMul [Ex.num (-1), Ex.sym strNu]]),
                              Ex.undef YN (Ex.sym strNu)]) strNu) = 1
    ∧ hasSym (exMul [Ex.undef vN (Ex.sym tN), Ex.undef yN (Ex.sym tN)]) strNu = false := by
  decide

/-- Claim C5 (amended): for every abstract function application
`v(scale*t + shift)` whose argument the term classifier `scale_shift`
accepts — which requires, beyond a `t`-free nonzero scale and `t`-free
shift, that the scale pass the constancy check (be free of all symbols)
whenever a shift is present — the forward transform returns
`V(f/scale)/|scale|`, with `V` the function name with its leading
character capitalized, times (when `shift ≠ 0`) the phase factor
`exp(2*I*pi*f*shift/scale)`; the inverse direction lowercases the
leading character and negates the shift. -/
theorem c5_amended_thm (name t f : String) (arg scale shift : Ex)
    (hss : scale_shift arg t = .ok (scale, shift)) :
    fourier_func (Ex.undef name arg) t f false
      = .ok (if shift = Ex.num 0
          then mulE [Ex.undef (upperFirst name) (divE (Ex.sym f) scale),
                     powE (absE scale) (Ex.num (-1))]
          else mulE [mulE [Ex.undef (upperFirst name) (divE (Ex.sym f) scale),
                           powE (absE scale) (Ex.num (-1))],
                     expE (mulE [Ex.num 2, Ex.iu, Ex.epi, Ex.sym f, shift,
                                 powE scale (Ex.num (-1))])])
    ∧ fourier_func (Ex.undef name arg) t f true
      = .ok (if shift = Ex.num 0
          then mulE [Ex.undef (lowerFirst name) (divE (Ex.sym f) scale),
                     powE (absE scale) (Ex.num (-1))]
          else mulE [mulE [Ex.undef (lowerFirst name) (divE (Ex.sym f) scale),
                           powE (absE scale) (Ex.num (-1))],
                     expE (mulE [Ex.num 2, Ex.iu, Ex.epi, Ex.sym f,
                                 mulE [Ex.num (-1), shift],
                                 powE scale (Ex.num (-1))])]) := by
  refine ⟨?_, ?_⟩ <;> by_cases hz : shift = Ex.num 0 <;>
    simp [fourier_func, hss, subsSym_undef_sym, hz]

/-- Witness for C5: `v(2*t + 3)`, with scale 2 and shift 3. -/
theorem c5_witness :
    scale_shift (exAdd [exMul [Ex.num 2, Ex.sym tN], Ex.num 3]) tN
        = .ok (Ex.num 2, Ex.num 3)
    ∧ (fourier_func (Ex.undef vN (exAdd [exMul [Ex.num 2, Ex.sym tN], Ex.num 3])) tN fN false
      = .ok (if (Ex.num 3 : Ex) = Ex.num 0
          then mulE [Ex.undef (upperFirst vN) (divE (Ex.sym fN) (Ex.num 2)),
                     powE (absE (Ex.num 2)) (Ex.num (-1))]
          else mulE [mulE [Ex.undef (upperFirst vN) (divE (Ex.sym fN) (Ex.num 2)),
                           powE (absE (Ex.num 2)) (Ex.num (-1))],
                     expE (mulE [Ex.num 2, Ex.iu, Ex.epi, Ex.sym fN, Ex.num 3,
                                 powE (Ex.num 2) (Ex.num (-1))])])
    ∧ fourier_func (Ex.undef vN (exAdd [exMul [Ex.num 2, Ex.sym tN], Ex.num 3])) tN fN true
      = .ok (if (Ex.num 3 : Ex) = Ex.num 0
          then mulE [Ex.undef (lowerFirst vN) (divE (Ex.sym fN) (Ex.num 2)),
                     powE (absE (Ex.num 2)) (Ex.num (-1))]
          else mulE [mulE [Ex.undef (lowerFirst vN) (divE (Ex.sym fN) (Ex.num 2)),
                           powE (absE (Ex.num 2)) (Ex.num (-1))],
                     expE (mulE [Ex.num 2, Ex.iu, Ex.epi, Ex.sym fN,
                                 mulE [Ex.num (-1), Ex.num 3],
                                 powE (Ex.num 2) (Ex.num (-1))])])) :=
  ⟨by decide, c5_amended_thm vN tN fN _ (Ex.num 2) (Ex.num 3) (by decide)⟩

/-- If the transform of some term in the list fails, the summation loop
fails. -/
theorem sumTermsE_error (S : Solver) (fuel : Nat) (tv fv : String) (inv : Bool) :
    ∀ (l : List Ex) (acc : Ex),
      (∃ x ∈ l, ∃ m, fourier_term S fuel x tv fv inv = .error m) →
      ∃ m2, sumTermsE S fuel tv fv inv acc l = .error m2 := by
  intro l
  induction l with
  | nil => rintro acc ⟨x, hx, _⟩; cases hx
  | cons y rest ih =>
      rintro acc ⟨x, hx, m, hf⟩
      cases hyt : fourier_term S fuel y tv fv inv with
      | error m2 => exact ⟨m2, by simp [sumTermsE, hyt]⟩
      | ok r =>
          rcases List.mem_cons.mp hx with rfl | h1
          · rw [hyt] at hf; cases hf
          · simpa [sumTermsE, hyt] using ih (addE [acc, r]) ⟨x, h1, m, hf⟩

/-- Claim C7, counterexample: for the input `v(a)` — an applied
undefined function of a symbol other than `t`, so the whole expression
is a single additive term whose transform fails — the top-level call
aborts with the bare `IndexError` message `list index out of range`,
which is not the single error naming the original input that the claim
promises (the source's `except ValueError` does not catch the
`IndexError` raised at `exprs[0]`). -/
theorem c7_counterexample :
    (fourier_transform unresolvedSolver 9 [] (Ex.undef vN (Ex.sym aN)) tN fN false).1
      = .error strIndexErr
    ∧ strIndexErr ≠ strCouldNot ++ toStr (Ex.undef vN (Ex.sym aN)) := by
  decide

/-- Claim C7 (amended): whenever the transform of any single additive
term of the (rewritten, expanded) input fails, the whole top-level call
fails — no partial sum is returned and the cache is discarded
unchanged; the error is the single `ValueError` naming the original,
pre-rewrite expression exactly when the failure that aborts the
summation loop is itself a `ValueError`, while any other failure (the
reachable `IndexError` from `exprs[0]`) propagates with its own
message, not naming the input. -/
theorem c7_amended_thm (S : Solver) (fuel : Nat) (c : Cache) (e : Ex) (t f : String)
    (inv : Bool) (term : Ex) (msg : String)
    (hmem : term ∈ addArgs (expandE (if hasCos e || hasSin e then rwExp e else e)))
    (hfail : fourier_term S fuel term (if inv then f else t) (if inv then t else f) inv
        = .error msg)
    (hmiss : lookupC c (e, t, f, inv) = none) :
    ∃ m2, sumTermsE S fuel (if inv then f else t) (if inv then t else f) inv (Ex.num 0)
        (addArgs (expandE (if hasCos e || hasSin e then rwExp e else e))) = .error m2
      ∧ fourier_transform S fuel c e t f inv
          = (.error (if caughtValueError m2 then strCouldNot ++ toStr e else m2), c) := by
  obtain ⟨m2, hsum⟩ :=
    sumTermsE_error S fuel (if inv then f else t) (if inv then t else f) inv
      (addArgs (expandE (if hasCos e || hasSin e then rwExp e else e))) (Ex.num 0)
      ⟨term, hmem, msg, hfail⟩
  refine ⟨m2, hsum, ?_⟩
  rw [fourier_transform]
  simp only [hmiss]
  rw [fourier_transform_core]
  simp only [hsum]
  by_cases hv : caughtValueError m2 = true
  · simp only [hv, if_true]
  · simp only [Bool.not_eq_true] at hv
    simp only [hv, Bool.false_eq_true, if_false]

/-- Witness for C7: the term `1/v(t)` (an abstract function in a
denominator) fails with a `ValueError`, and the top-level call reports
the original expression. -/
theorem c7_witness :
    ∃ m2, sumTermsE unresolvedSolver 9 tN fN false (Ex.num 0)
        (addArgs (expandE (if hasCos (Ex.pow (Ex.undef vN (Ex.sym tN)) (Ex.num (-1)))
          || hasSin (Ex.pow (Ex.undef vN (Ex.sym tN)) (Ex.num (-1)))
          then rwExp (Ex.pow (Ex.undef vN (Ex.sym tN)) (Ex.num (-1)))
          else Ex.pow (Ex.undef vN (Ex.sym tN)) (Ex.num (-1))))) = .error m2
      ∧ fourier_transform unresolvedSolver 9 []
          (Ex.pow (Ex.undef vN (Ex.sym tN)) (Ex.num (-1))) tN fN false
        = (.error (if caughtValueError m2
            then strCouldNot ++ toStr (Ex.pow (Ex.undef vN (Ex.sym tN)) (Ex.num (-1)))
            else m2), []) :=
  c7_amended_thm unresolvedSolver 9 [] (Ex.pow (Ex.undef vN (Ex.sym tN)) (Ex.num (-1))) tN fN
    false (Ex.pow (Ex.undef vN (Ex.sym tN)) (Ex.num (-1)))
    (strCannot ++ toStr (Ex.pow (Ex.undef vN (Ex.sym tN)) (Ex.num (-1))))
    (by decide) (by decide) rfl

/-- Entries survive any further call: the cache is never invalidated,
removed from, or overwritten. -/
theorem lookupC_mono (S : Solver) (fuel : Nat) (c : Cache) (e : Ex) (t f : String)
    (inv : Bool) (k : Key) (v : Ex) (h : lookupC c k = some v) :
    lookupC (fourier_transform S fuel c e t f inv).2 k = some v := by
  rw [fourier_transform]
  cases hl : lookupC c ((e, t, f, inv) : Key) with
  | some w => simp only [hl]; exact h
  | none =>
      simp only [hl]
      cases hc : fourier_transform_core S fuel e t f inv with
      | error m => simp only [hc]; exact h
      | ok r =>
          simp only [hc]
          by_cases hk : ((e, t, f, inv) : Key) = k
          · rw [← hk] at h; rw [h] at hl; cases hl
          · rw [lookupC]
            simp only [if_neg hk]
            exact h

/-- In every reachable cache, each entry holds exactly the result of
the completed transform computation for its key. -/
theorem reaches_good (S : Solver) (fuel : Nat) :
    ∀ c, Reaches S fuel c → ∀ k v, lookupC c k = some v →
      fourier_transform_core S fuel k.1 k.2.1 k.2.2.1 k.2.2.2 = .ok v := by
  intro c h
  induction h with
  | nil => intro k v hv; cases hv
  | step c e t f inv _ ih =>
      intro k v
      rw [fourier_transform]
      cases hl : lookupC c ((e, t, f, inv) : Key) with
      | some w => simp only [hl]; exact ih k v
      | none =>
          simp only [hl]
          cases hc : fourier_transform_core S fuel e t f inv with
          | error m => simp only [hc]; exact ih k v
          | ok r =>
              simp only [hc]
              rw [lookupC]
              by_cases hk : ((e, t, f, inv) : Key) = k
              · simp only [if_pos hk]
                intro hv
                cases hv
                rw [← hk]
                exact hc
              · simp only [if_neg hk]
                exact ih k v

/-- Claim C8: with any reachable cache, the observable result equals
that of the computation from the empty cache (the cache is not
observable in the output), and after a successful call the entry is
cached so that an identical second call returns it from the lookup
branch, leaving the cache unchanged. -/
theorem c8_thm (S : Solver) (fuel : Nat) (c : Cache) (e : Ex) (t f : String)
    (inv : Bool) (h : Reaches S fuel c) :
    (fourier_transform S fuel c e t f inv).1 = (fourier_transform S fuel [] e t f inv).1
    ∧ ∀ r c2, fourier_transform S fuel c e t f inv = (.ok r, c2) →
        lookupC c2 (e, t, f, inv) = some r
        ∧ fourier_transform S fuel c2 e t f inv = (.ok r, c2) := by
  constructor
  · rw [fourier_transform, fourier_transform]
    cases hl : lookupC c ((e, t, f, inv) : Key) with
    | none =>
        simp only [hl, lookupC]
        cases fourier_transform_core S fuel e t f inv <;> rfl
    | some v =>
        have hg := reaches_good S fuel c h (e, t, f, inv) v hl
        simp only [hl, lookupC, hg]
  · intro r c2 hrun
    rw [fourier_transform] at hrun
    cases hl : lookupC c ((e, t, f, inv) : Key) with
    | some v =>
        simp only [hl] at hrun
        cases hrun
        exact ⟨hl, by rw [fourier_transform]; simp only [hl]⟩
    | none =>
        simp only [hl] at hrun
        cases hc : fourier_transform_core S fuel e t f inv with
        | error m => rw [hc] at hrun; cases hrun
        | ok r2 =>
            rw [hc] at hrun
            rw [Prod.mk.injEq] at hrun
            obtain ⟨h1, h2⟩ := hrun
            injection h1 with h1x
            subst h1x
            subst h2
            have hself : lookupC ((((e, t, f, inv) : Key), r2) :: c) ((e, t, f, inv) : Key)
               = some r2 := by
              simp [lookupC]
            refine ⟨hself, ?_⟩
            rw [fourier_transform]
            simp only [hself]

/-- Claim C9: in every reachable state of the process-wide cache, each
entry (keyed by expression, source symbol, target symbol and direction)
holds the resulting expression of the completed transform for that key,
and no entry is ever invalidated, removed or overwritten by later
calls. -/
theorem c9_thm (S : Solver) (fuel : Nat) (c : Cache) (h : Reaches S fuel c) :
    (∀ k v, lookupC c k = some v →
        fourier_transform_core S fuel k.1 k.2.1 k.2.2.1 k.2.2.2 = .ok v)
    ∧ ∀ e t f inv k v, lookupC c k = some v →
        lookupC (fourier_transform S fuel c e t f inv).2 k = some v :=
  ⟨reaches_good S fuel c h,
   fun e t f inv k v hv => lookupC_mono S fuel c e t f inv k v hv⟩

/-- Witness for C8: the empty cache is reachable; transforming the
constant `a` caches and replays its result. -/
theorem c8_witness :
    (fourier_transform unresolvedSolver 9 [] (Ex.sym aN) tN fN false).1
      = (fourier_transform unresolvedSolver 9 [] (Ex.sym aN) tN fN false).1
    ∧ ∀ r c2, fourier_transform unresolvedSolver 9 [] (Ex.sym aN) tN fN false = (.ok r, c2) →
        lookupC c2 (Ex.sym aN, tN, fN, false) = some r
        ∧ fourier_transform unresolvedSolver 9 c2 (Ex.sym aN) tN fN false = (.ok r, c2) :=
  c8_thm unresolvedSolver 9 [] (Ex.sym aN) tN fN false Reaches.nil

/-- Witness for C9: the one-entry cache left by transforming the
constant `a` is reachable and satisfies the invariant. -/
theorem c9_witness :
    (∀ k v, lookupC (fourier_transform unresolvedSolver 9 [] (Ex.sym aN) tN fN false).2 k
          = some v →
        fourier_transform_core unresolvedSolver 9 k.1 k.2.1 k.2.2.1 k.2.2.2 = .ok v)
    ∧ ∀ e t f inv k v,
        lookupC (fourier_transform unresolvedSolver 9 [] (Ex.sym aN) tN fN false).2 k
          = some v →
        lookupC (fourier_transform unresolvedSolver 9
            (fourier_transform unresolvedSolver 9 [] (Ex.sym aN) tN fN false).2
            e t f inv).2 k = some v :=
  c9_thm unresolvedSolver 9 (fourier_transform unresolvedSolver 9 [] (Ex.sym aN) tN fN false).2
    (Reaches.step [] (Ex.sym aN) tN fN false Reaches.nil)

set_option maxHeartbeats 1600000 in
/-- Claim C1 (amended): for every constant symbol `a` distinct from the
domain variable, and any solver, `forward_transform(exp(-i*2*pi*a*t),
t, f)` equals `impulse(f + a)` — the impulse sits at `f = -a`, not at
`f = a` as the original claim stated. -/
theorem c1_amended_thm (a : String) (S : Solver) (fuel : Nat) (h : a ≠ tN) :
    (fourier_transform S (fuel + 1) []
        (Ex.fexp (mulE [Ex.num (-1), Ex.iu, Ex.num 2, Ex.epi, Ex.sym a, Ex.sym tN]))
        tN fN false).1
      = .ok (Ex.delta (exAdd [Ex.sym fN, Ex.sym a]) 0) := by
  rw [show tN = "t" from rfl] at h ⊢
  rw [show fN = "f" from rfl]
  have e1 : mulE [Ex.num (-1), Ex.iu, Ex.num 2, Ex.epi, Ex.sym a, Ex.sym "t"]
      = exMul [Ex.num (-2), Ex.iu, Ex.epi, Ex.sym a, Ex.sym "t"] := by
    simp [mulE, exMul, ExList.ofList, ExList.toList, gatherFactors, insertBase,
          rebuildFactors, mkPow, mulArgs, List.flatMap, h,
          qmk, gcdN, gcdF, q_mul_def, q_neg_def, q_ofNat_def]
  have e2 : divE (exMul [Ex.num (-2), Ex.iu, Ex.epi, Ex.sym a, Ex.sym "t"]) (Ex.sym "t")
      = exMul [Ex.num (-2), Ex.iu, Ex.epi, Ex.sym a] := by
    simp [mulE, exMul, divE, powE, ExList.ofList, ExList.toList, gatherFactors, insertBase,
          rebuildFactors, mkPow, mulArgs, addE, addArgs, List.flatMap, List.filter, h,
          qpow_neg_one, qpow_two, qinv, qmk, gcdN, gcdF, q_mul_def, q_add_def, q_neg_def,
          q_ofNat_def]
  have e3 : divE (exMul [Ex.num (-2), Ex.iu, Ex.epi, Ex.sym a]) (mulE [Ex.iu, Ex.num 2, Ex.epi])
      = exMul [Ex.num (-1), Ex.sym a] := by
    simp [mulE, exMul, divE, powE, ExList.ofList, ExList.toList, gatherFactors, insertBase,
          rebuildFactors, mkPow, mulArgs, addE, addArgs, List.flatMap, List.filter, h,
          qpow_neg_one, qpow_two, qinv, qmk, gcdN, gcdF, q_mul_def, q_add_def, q_neg_def,
          q_ofNat_def]
  have e4 : subE (Ex.sym "f") (exMul [Ex.num (-1), Ex.sym a]) = exAdd [Ex.sym "f", Ex.sym a] := by
    simp [subE, mulE, exMul, exAdd, addE, addArgs, mulArgs, ExList.ofList, ExList.toList,
          gatherFactors, insertBase, rebuildFactors, mkPow, List.flatMap, List.filter,
          qmk, gcdN, gcdF, q_mul_def, q_add_def, q_neg_def, q_ofNat_def]
  have ht : fourier_term S (fuel + 1)
      (Ex.fexp (exMul [Ex.num (-2), Ex.iu, Ex.epi, Ex.sym a, Ex.sym "t"])) "t" "f" false
      = .ok (Ex.delta (exAdd [Ex.sym "f", Ex.sym a]) 0) := by
    rw [fourier_term]
    simp only [hasUndef, hasUndefL, hasSym, hasSymL, exMul, ExList.ofList, ExList.toList,
      mulArgs, List.filter, isExpF, exArgs0, hasI, hasIL, Bool.or_false, Bool.false_or,
      Bool.and_true, Bool.and_false, Bool.true_and, Bool.false_and, decide_True, decide_False,
      mulE_nil, mulE_single_fexp]
    simp only [exMul, ExList.ofList] at e2 e3 e4
    simp [h, e2, e3, e4, mulE_one_delta, mulE_nil, mulE_single_fexp, exMul, exAdd,
      hasSym, hasSymL, hasI, hasIL, ExList.ofList, ExList.toList]
  rw [e1]
  have hc1 : hasCos (Ex.fexp (exMul [Ex.num (-2), Ex.iu, Ex.epi, Ex.sym a, Ex.sym "t"]))
      = false := by
    simp [hasCos, hasCosL, exMul, ExList.ofList]
  have hc2 : hasSin (Ex.fexp (exMul [Ex.num (-2), Ex.iu, Ex.epi, Ex.sym a, Ex.sym "t"]))
      = false := by
    simp [hasSin, hasSinL, exMul, ExList.ofList]
  rw [fourier_transform]
  simp only [lookupC]
  rw [fourier_transform_core]
  simp only [hc1, hc2, Bool.or_self, if_false, Bool.false_eq_true]
  simp only [expandE, addArgs, sumTermsE, ht, addE_zero_delta]

/-- Witness for C1: the symbol `a` itself. -/
theorem c1_witness :
    aN ≠ tN
    ∧ (fourier_transform unresolvedSolver 9 []
        (Ex.fexp (mulE [Ex.num (-1), Ex.iu, Ex.num 2, Ex.epi, Ex.sym aN, Ex.sym tN]))
        tN fN false).1
      = .ok (Ex.delta (exAdd [Ex.sym fN, Ex.sym aN]) 0) :=
  ⟨by decide, c1_amended_thm aN unresolvedSolver 8 (by decide)⟩

theorem addE_two_fexp (x y : Ex) :
    addE [Ex.fexp x, Ex.fexp y] = exAdd [Ex.fexp x, Ex.fexp y] := by
  simp [addE, addArgs, List.flatMap, List.filter, List.foldl, exAdd,
        q_add_def, q_ofNat_def, qmk, gcdN, gcdF]

theorem divE_add_half (ts : ExList) :
    divE (Ex.add ts) (Ex.num 2) = exMul [Ex.num (Q.mk 1 2), Ex.add ts] := by
  simp [divE, powE, mkPow, mulE, mulArgs, List.flatMap, gatherFactors, insertBase,
        rebuildFactors, exMul, qpow_neg_one, qinv, qmk, gcdN, gcdF,
        q_mul_def, q_neg_def, q_ofNat_def]

theorem mulE_single_half : mulE [Ex.num (Q.mk 1 2)] = Ex.num (Q.mk 1 2) := by decide

theorem mulE_half_fexp (z : Ex) :
    mulE [Ex.num (Q.mk 1 2), Ex.fexp z] = exMul [Ex.num (Q.mk 1 2), Ex.fexp z] := by
  simp [mulE, mulArgs, List.flatMap, gatherFactors, insertBase, rebuildFactors, mkPow,
        exMul, qmk, gcdN, gcdF, q_mul_def, q_ofNat_def]

theorem mulE_half_delta (z : Ex) (n : Nat) :
    mulE [Ex.num (Q.mk 1 2), Ex.delta z n] = exMul [Ex.num (Q.mk 1 2), Ex.delta z n] := by
  simp [mulE, mulArgs, List.flatMap, gatherFactors, insertBase, rebuildFactors, mkPow,
        exMul, qmk, gcdN, gcdF, q_mul_def, q_ofNat_def]

theorem expE_mul (fs : ExList) : expE (Ex.mul fs) = Ex.fexp (Ex.mul fs) := by
  simp [expE]

theorem expE_exMul (l : List Ex) : expE (exMul l) = Ex.fexp (exMul l) := by
  simp [expE, exMul]

theorem divE_exAdd_half (l : List Ex) :
    divE (exAdd l) (Ex.num 2) = exMul [Ex.num (Q.mk 1 2), exAdd l] := by
  simp [divE, powE, mkPow, mulE, mulArgs, List.flatMap, gatherFactors, insertBase,
        rebuildFactors, exMul, exAdd, qpow_neg_one, qinv, qmk, gcdN, gcdF,
        q_mul_def, q_neg_def, q_ofNat_def]

set_option maxHeartbeats 3000000 in
/-- Claim C3: for every constant symbol `a` distinct from the domain
variable, and any solver, `forward_transform(cos(2*pi*a*t), t, f)`
equals `0.5*impulse(f - a) + 0.5*impulse(f + a)`: the cosine is
rewritten into complex exponentials, split into two additive terms, and
each yields a half-weight shifted impulse. -/
theorem c3_thm (a : String) (S : Solver) (fuel : Nat) (h : a ≠ tN) :
    (fourier_transform S (fuel + 1) []
        (Ex.fcos (mulE [Ex.num 2, Ex.epi, Ex.sym a, Ex.sym tN])) tN fN false).1
      = .ok (exAdd [
          exMul [Ex.num (Q.mk 1 2),
                 Ex.delta (exAdd [Ex.sym fN, exMul [Ex.num (-1), Ex.sym a]]) 0],
          exMul [Ex.num (Q.mk 1 2),
                 Ex.delta (exAdd [Ex.sym fN, Ex.sym a]) 0]]) := by
  rw [show tN = "t" from rfl] at h ⊢
  rw [show fN = "f" from rfl]
  have e0 : mulE [Ex.num 2, Ex.epi, Ex.sym a, Ex.sym "t"]
      = exMul [Ex.num 2, Ex.epi, Ex.sym a, Ex.sym "t"] := by
    simp [mulE, exMul, ExList.ofList, ExList.toList, gatherFactors, insertBase,
          rebuildFactors, mkPow, mulArgs, List.flatMap, h,
          qmk, gcdN, gcdF, q_mul_def, q_ofNat_def]
  rw [e0]
  -- the sinusoid rewrite
  have erwx : rwExp (exMul [Ex.num 2, Ex.epi, Ex.sym a, Ex.sym "t"])
      = exMul [Ex.num 2, Ex.epi, Ex.sym a, Ex.sym "t"] := by
    simp [rwExp, rwExpL, exMul, ExList.ofList]
  have m1 : mulE [Ex.iu, exMul [Ex.num 2, Ex.epi, Ex.sym a, Ex.sym "t"]]
      = exMul [Ex.num 2, Ex.iu, Ex.epi, Ex.sym a, Ex.sym "t"] := by
    simp [mulE, exMul, ExList.ofList, ExList.toList, gatherFactors, insertBase,
          rebuildFactors, mkPow, mulArgs, List.flatMap, h,
          qmk, gcdN, gcdF, q_mul_def, q_ofNat_def]
  have m2 : mulE [Ex.num (-1), Ex.iu, exMul [Ex.num 2, Ex.epi, Ex.sym a, Ex.sym "t"]]
      = exMul [Ex.num (-2), Ex.iu, Ex.epi, Ex.sym a, Ex.sym "t"] := by
    simp [mulE, exMul, ExList.ofList, ExList.toList, gatherFactors, insertBase,
          rebuildFactors, mkPow, mulArgs, List.flatMap, h,
          qmk, gcdN, gcdF, q_mul_def, q_neg_def, q_ofNat_def]
  have erw : rwExp (Ex.fcos (exMul [Ex.num 2, Ex.epi, Ex.sym a, Ex.sym "t"]))
      = exMul [Ex.num (Q.mk 1 2),
          exAdd [Ex.fexp (exMul [Ex.num 2, Ex.iu, Ex.epi, Ex.sym a, Ex.sym "t"]),
                 Ex.fexp (exMul [Ex.num (-2), Ex.iu, Ex.epi, Ex.sym a, Ex.sym "t"])]] := by
    rw [rwExp, erwx, m1, m2, expE_exMul, expE_exMul, addE_two_fexp, divE_exAdd_half]
  have eexp : expandE (exMul [Ex.num (Q.mk 1 2),
          exAdd [Ex.fexp (exMul [Ex.num 2, Ex.iu, Ex.epi, Ex.sym a, Ex.sym "t"]),
                 Ex.fexp (exMul [Ex.num (-2), Ex.iu, Ex.epi, Ex.sym a, Ex.sym "t"])]])
      = exAdd [exMul [Ex.num (Q.mk 1 2),
                      Ex.fexp (exMul [Ex.num 2, Ex.iu, Ex.epi, Ex.sym a, Ex.sym "t"])],
               exMul [Ex.num (Q.mk 1 2),
                      Ex.fexp (exMul [Ex.num (-2), Ex.iu, Ex.epi, Ex.sym a, Ex.sym "t"])]] := by
    simp [expandE, expandL, crossTerms, addArgs, List.flatMap, addE_two_fexp,
          mulE_half_fexp, addE_two_mul, exMul, exAdd, ExList.ofList, ExList.toList]
  have d2p : divE (exMul [Ex.num 2, Ex.iu, Ex.epi, Ex.sym a, Ex.sym "t"]) (Ex.sym "t")
      = exMul [Ex.num 2, Ex.iu, Ex.epi, Ex.sym a] := by
    simp [mulE, exMul, divE, powE, ExList.ofList, ExList.toList, gatherFactors, insertBase,
          rebuildFactors, mkPow, mulArgs, addE, addArgs, List.flatMap, List.filter, h,
          qpow_neg_one, qpow_two, qinv, qmk, gcdN, gcdF, q_mul_def, q_add_def, q_neg_def,
          q_ofNat_def]
  have d3p : divE (exMul [Ex.num 2, Ex.iu, Ex.epi, Ex.sym a]) (mulE [Ex.iu, Ex.num 2, Ex.epi])
      = Ex.sym a := by
    simp [mulE, exMul, divE, powE, ExList.ofList, ExList.toList, gatherFactors, insertBase,
          rebuildFactors, mkPow, mulArgs, addE, addArgs, List.flatMap, List.filter, h,
          qpow_neg_one, qpow_two, qinv, qmk, gcdN, gcdF, q_mul_def, q_add_def, q_neg_def,
          q_ofNat_def]
  have d4p : subE (Ex.sym "f") (Ex.sym a)
      = exAdd [Ex.sym "f", exMul [Ex.num (-1), Ex.sym a]] := by
    simp [subE, mulE, exMul, exAdd, addE, addArgs, mulArgs, ExList.ofList, ExList.toList,
          gatherFactors, insertBase, rebuildFactors, mkPow, List.flatMap, List.filter,
          qmk, gcdN, gcdF, q_mul_def, q_add_def, q_neg_def, q_ofNat_def]
  have ht1 : fourier_term S (fuel + 1)
      (exMul [Ex.num (Q.mk 1 2), Ex.fexp (exMul [Ex.num 2, Ex.iu, Ex.epi, Ex.sym a, Ex.sym "t"])])
      "t" "f" false
      = .ok (exMul [Ex.num (Q.mk 1 2),
          Ex.delta (exAdd [Ex.sym "f", exMul [Ex.num (-1), Ex.sym a]]) 0]) := by
    rw [fourier_term]
    simp only [hasUndef, hasUndefL, hasSym, hasSymL, exMul, ExList.ofList, ExList.toList,
      mulArgs, List.filter, isExpF, exArgs0, hasI, hasIL, Bool.or_false, Bool.false_or,
      Bool.and_true, Bool.and_false, Bool.true_and, Bool.false_and, decide_True, decide_False,
      mulE_nil, mulE_single_fexp, mulE_single_half]
    simp only [exMul, ExList.ofList] at d2p d3p d4p
    simp [h, d2p, d3p, d4p, mulE_half_delta, mulE_single_half, mulE_nil, mulE_single_fexp,
      exMul, exAdd, hasSym, hasSymL, hasI, hasIL, ExList.ofList, ExList.toList]
  have d2m : divE (exMul [Ex.num (-2), Ex.iu, Ex.epi, Ex.sym a, Ex.sym "t"]) (Ex.sym "t")
      = exMul [Ex.num (-2), Ex.iu, Ex.epi, Ex.sym a] := by
    simp [mulE, exMul, divE, powE, ExList.ofList, ExList.toList, gatherFactors, insertBase,
          rebuildFactors, mkPow, mulArgs, addE, addArgs, List.flatMap, List.filter, h,
          qpow_neg_one, qpow_two, qinv, qmk, gcdN, gcdF, q_mul_def, q_add_def, q_neg_def,
          q_ofNat_def]
  have d3m : divE (exMul [Ex.num (-2), Ex.iu, Ex.epi, Ex.sym a]) (mulE [Ex.iu, Ex.num 2, Ex.epi])
      = exMul [Ex.num (-1), Ex.sym a] := by
    simp [mulE, exMul, divE, powE, ExList.ofList, ExList.toList, gatherFactors, insertBase,
          rebuildFactors, mkPow, mulArgs, addE, addArgs, List.flatMap, List.filter, h,
          qpow_neg_one, qpow_two, qinv, qmk, gcdN, gcdF, q_mul_def, q_add_def, q_neg_def,
          q_ofNat_def]
  have d4m : subE (Ex.sym "f") (exMul [Ex.num (-1), Ex.sym a])
      = exAdd [Ex.sym "f", Ex.sym a] := by
    simp [subE, mulE, exMul, exAdd, addE, addArgs, mulArgs, ExList.ofList, ExList.toList,
          gatherFactors, insertBase, rebuildFactors, mkPow, List.flatMap, List.filter,
          qmk, gcdN, gcdF, q_mul_def, q_add_def, q_neg_def, q_ofNat_def]
  have ht2 : fourier_term S (fuel + 1)
      (exMul [Ex.num (Q.mk 1 2), Ex.fexp (exMul [Ex.num (-2), Ex.iu, Ex.epi, Ex.sym a, Ex.sym "t"])])
      "t" "f" false
      = .ok (exMul [Ex.num (Q.mk 1 2), Ex.delta (exAdd [Ex.sym "f", Ex.sym a]) 0]) := by
    rw [fourier_term]
    simp only [hasUndef, hasUndefL, hasSym, hasSymL, exMul, ExList.ofList, ExList.toList,
      mulArgs, List.filter, isExpF, exArgs0, hasI, hasIL, Bool.or_false, Bool.false_or,
      Bool.and_true, Bool.and_false, Bool.true_and, Bool.false_and, decide_True, decide_False,
      mulE_nil, mulE_single_fexp, mulE_single_half]
    simp only [exMul, ExList.ofList] at d2m d3m d4m
    simp [h, d2m, d3m, d4m, mulE_half_delta, mulE_single_half, mulE_nil, mulE_single_fexp,
      exMul, exAdd, hasSym, hasSymL, hasI, hasIL, ExList.ofList, ExList.toList]
  have hcosv : hasCos (Ex.fcos (exMul [Ex.num 2, Ex.epi, Ex.sym a, Ex.sym "t"])) = true := by
    simp [hasCos]
  rw [fourier_transform]
  simp only [lookupC]
  rw [fourier_transform_core]
  simp only [hcosv, Bool.true_or, if_true, Bool.false_eq_true, if_false]
  rw [erw, eexp]
  simp only [exAdd, addArgs, ExList.toList, ExList.ofList]
  simp only [sumTermsE, ht1, ht2]
  simp only [exMul, ExList.ofList] at ht1 ht2 ⊢
  simp only [sumTermsE, ht1, ht2, addE_zero_mul, addE_two_mul, exAdd, exMul, ExList.ofList]

/-- Witness for C3: the symbol `a` itself. -/
theorem c3_witness :
    aN ≠ tN
    ∧ (fourier_transform unresolvedSolver 9 []
        (Ex.fcos (mulE [Ex.num 2, Ex.epi, Ex.sym aN, Ex.sym tN])) tN fN false).1
      = .ok (exAdd [
          exMul [Ex.num (Q.mk 1 2),
                 Ex.delta (exAdd [Ex.sym fN, exMul [Ex.num (-1), Ex.sym aN]]) 0],
          exMul [Ex.num (Q.mk 1 2),
                 Ex.delta (exAdd [Ex.sym fN, Ex.sym aN]) 0]]) :=
  ⟨by decide, c3_thm aN unresolvedSolver 8 (by decide)⟩

theorem mulE_single_undef (g : String) (z : Ex) :
    mulE [Ex.undef g z] = Ex.undef g z := by
  simp [mulE, mulArgs, List.flatMap, gatherFactors, insertBase, rebuildFactors, mkPow,
        qmk, gcdN, gcdF, q_mul_def, q_ofNat_def]

set_option maxHeartbeats 1600000 in
/-- Claim C10: the dual-domain rename only changes the case of the
leading character, so every abstract function whose name already starts
with an uppercase letter is mapped to itself by the forward transform —
`forward_transform(V(t), t, f) = V(f)` — and in particular `v(t)` and
`V(t)` both map to `V(f)`: the forward rename is not injective. -/
theorem c10_thm (name : String) (S : Solver) (fuel : Nat) (h : upperFirst name = name) :
    (fourier_transform S (fuel + 2) [] (Ex.undef name (Ex.sym tN)) tN fN false).1
      = .ok (Ex.undef name (Ex.sym fN))
    ∧ (fourier_transform unresolvedSolver 9 [] (Ex.undef vN (Ex.sym tN)) tN fN false).1
      = (fourier_transform unresolvedSolver 9 [] (Ex.undef VN (Ex.sym tN)) tN fN false).1 := by
  refine ⟨?_, by decide⟩
  rw [show tN = "t" from rfl, show fN = "f" from rfl]
  have hss : scale_shift (Ex.sym "t") "t" = .ok (Ex.num 1, Ex.num 0) := by decide
  have hdiv : divE (Ex.sym "f") (Ex.num 1) = Ex.sym "f" := by decide
  have hpow : powE (absE (Ex.num 1)) (Ex.num (-1)) = Ex.num 1 := by decide
  have hfunc : fourier_func (Ex.undef name (Ex.sym "t")) "t" "f" false
      = .ok (Ex.undef name (Ex.sym "f")) := by
    rw [fourier_func, hss]
    simp only [h, hdiv, hpow, subsSym_undef_sym, mulE_undef_one]
    simp
  have hff : fourier_function S (fuel + 1) (Ex.undef name (Ex.sym "t")) "t" "f" false
      = .ok (Ex.undef name (Ex.sym "f")) := by
    rw [fourier_function]
    simp only [hasUndef, Bool.not_true, factor_const, mulArgs, List.filter, hasSym,
      decide_True, decide_False, Bool.not_false, mulE_nil, mulE_single_undef]
    simp [hasSym, hfunc, mulE_undef_one, mulE_nil, mulE_single_undef, factor_const,
      mulArgs, List.filter]
  have ht : fourier_term S (fuel + 2) (Ex.undef name (Ex.sym "t")) "t" "f" false
      = .ok (Ex.undef name (Ex.sym "f")) := by
    rw [fourier_term]
    simp [hasUndef, hff]
  rw [fourier_transform]
  simp only [lookupC]
  rw [fourier_transform_core]
  simp only [hasCos, hasSin, Bool.or_self, Bool.false_eq_true, if_false]
  simp only [expandE, addArgs, sumTermsE, ht, addE_zero_undef]

/-- Witness for C10: the already-capitalized name `V`. -/
theorem c10_witness :
    upperFirst VN = VN
    ∧ ((fourier_transform unresolvedSolver 9 [] (Ex.undef VN (Ex.sym tN)) tN fN false).1
        = .ok (Ex.undef VN (Ex.sym fN))
      ∧ (fourier_transform unresolvedSolver 9 [] (Ex.undef vN (Ex.sym tN)) tN fN false).1
        = (fourier_transform unresolvedSolver 9 [] (Ex.undef VN (Ex.sym tN)) tN fN false).1) :=
  ⟨by decide, c10_thm VN unresolvedSolver 7 (by decide)⟩

end LcapyFourier

namespace LcapyFourier
open Ex

/-- The shape shared by the hereditary absence predicates `hasSym · s`
and `hasUndef`: how the predicate evaluates on each node the smart
constructors and rewriters build. -/
structure Herd (P : Ex → Bool) : Prop where
  hnum : ∀ q, P (.num q) = false
  hiu : P .iu = false
  hepi : P .epi = false
  hadd : ∀ ts, P (.add ts) = ts.toList.any P
  hmul : ∀ fs, P (.mul fs) = fs.toList.any P
  hpow : ∀ b e, P (.pow b e) = (P b || P e)
  hfexp : ∀ a, P (.fexp a) = P a
  hfcos : ∀ a, P (.fcos a) = P a
  hfsin : ∀ a, P (.fsin a) = P a
  hdelta : ∀ a n, P (.delta a n) = P a
  hheav : ∀ a, P (.heav a) = P a
  hsgn : ∀ a, P (.sgn a) = P a
  hfabs : ∀ a, P (.fabs a) = P a
  huneval : ∀ a, P (.uneval a) = P a
  hundef_inv : ∀ g a, P (.undef g a) = false → P a = false
  hundef_mk : ∀ g a b, P (.undef g a) = false → P b = false → P (.undef g b) = false
  hinteg_inv : ∀ v a, P (.integ a v) = false → P a = false
  hinteg_mk : ∀ v a b, P (.integ a v) = false → P b = false → P (.integ b v) = false

theorem hasSymL_any (s : String) : ∀ ts : ExList,
    hasSymL ts s = ts.toList.any (fun e => hasSym e s)
  | .nil => rfl
  | .cons e es => by
      simp [hasSymL, ExList.toList, hasSymL_any s es]

theorem hasUndefL_any : ∀ ts : ExList, hasUndefL ts = ts.toList.any hasUndef
  | .nil => rfl
  | .cons e es => by
      simp [hasUndefL, ExList.toList, hasUndefL_any es]

theorem herd_hasSym (s : String) : Herd (fun e => hasSym e s) := by
  refine ⟨?_, ?_, ?_, ?_, ?_, ?_, ?_, ?_, ?_, ?_, ?_, ?_, ?_, ?_, ?_, ?_, ?_, ?_⟩ <;>
    intros <;> simp_all [hasSym, hasSymL_any]

theorem herd_hasUndef : Herd hasUndef := by
  refine ⟨?_, ?_, ?_, ?_, ?_, ?_, ?_, ?_, ?_, ?_, ?_, ?_, ?_, ?_, ?_, ?_, ?_, ?_⟩ <;>
    intros <;> simp_all [hasUndef, hasUndefL_any]

theorem herd_addArgs {P : Ex → Bool} (hP : Herd P) (e : Ex) (h : P e = false) :
    ∀ x ∈ addArgs e, P x = false := by
  intro x hx
  cases e
  case add ts =>
    rw [hP.hadd] at h
    simp only [addArgs] at hx
    simp only [List.any_eq_false] at h
    simpa using h x hx
  all_goals simp [addArgs] at hx; subst hx; exact h

theorem herd_mulArgs {P : Ex → Bool} (hP : Herd P) (e : Ex) (h : P e = false) :
    ∀ x ∈ mulArgs e, P x = false := by
  intro x hx
  cases e
  case mul fs =>
    rw [hP.hmul] at h
    simp only [mulArgs] at hx
    simp only [List.any_eq_false] at h
    simpa using h x hx
  all_goals simp [mulArgs] at hx; subst hx; exact h

theorem herd_exAdd {P : Ex → Bool} (hP : Herd P) (l : List Ex)
    (h : ∀ x ∈ l, P x = false) : P (exAdd l) = false := by
  rw [exAdd, hP.hadd]
  simp only [ExList.toList_ofList, List.any_eq_false]
  intro x hx
  simp [h x hx]

theorem herd_exMul {P : Ex → Bool} (hP : Herd P) (l : List Ex)
    (h : ∀ x ∈ l, P x = false) : P (exMul l) = false := by
  rw [exMul, hP.hmul]
  simp only [ExList.toList_ofList, List.any_eq_false]
  intro x hx
  simp [h x hx]

theorem herd_addE {P : Ex → Bool} (hP : Herd P) (l : List Ex)
    (h : ∀ x ∈ l, P x = false) : P (addE l) = false := by
  have hflat : ∀ x ∈ l.flatMap addArgs, P x = false := by
    intro x hx
    rw [List.mem_flatMap] at hx
    obtain ⟨y, hy, hxy⟩ := hx
    exact herd_addArgs hP y (h y hy) x hxy
  have key : ∀ (args : List Ex), (∀ x ∈ args, P x = false) →
      P (match args with | [] => Ex.num 0 | [x] => x | xs => exAdd xs) = false := by
    intro args hargs
    match args with
    | [] => exact hP.hnum 0
    | [x] => exact hargs x (by simp)
    | x :: y :: xs =>
        show P (exAdd (x :: y :: xs)) = false
        exact herd_exAdd hP _ hargs
  simp only [addE]
  apply key
  intro x hx
  rcases List.mem_append.mp hx with hx1 | hx2
  · exact hflat x (List.mem_filter.mp hx1).1
  · by_cases hq : (l.flatMap addArgs).foldl
        (fun acc e => match e with | Ex.num q2 => acc + q2 | _ => acc) 0 = 0
    · simp [hq] at hx2
    · simp [hq] at hx2
      subst hx2
      exact hP.hnum _

theorem herd_mkPow {P : Ex → Bool} (hP : Herd P) (b e : Ex)
    (hb : P b = false) (he : P e = false) : P (mkPow b e) = false := by
  have hmi : P (exMul [Ex.num (-1), Ex.iu]) = false := by
    rw [exMul, hP.hmul]
    simp [ExList.toList, ExList.ofList, hP.hnum, hP.hiu]
  rw [mkPow.eq_def]
  split
  · exact hb
  split
  · exact hP.hnum 1
  split
  · split
    · exact hP.hnum _
    · simp [hP.hpow, hb, he]
  · split
    · split
      · exact hP.hnum 1
      · exact hP.hiu
      · exact hP.hnum _
      · exact hmi
    · simp [hP.hpow, hb, he]
  · simp [hP.hpow, hb, he]

theorem herd_insertBase {P : Ex → Bool} (hP : Herd P) :
    ∀ (bs : List (Ex × Ex)) (b e : Ex),
      (∀ p ∈ bs, P (p : Ex × Ex).1 = false ∧ P p.2 = false) →
      P b = false → P e = false →
      ∀ p ∈ insertBase bs b e, P p.1 = false ∧ P p.2 = false := by
  intro bs
  induction bs with
  | nil =>
      intro b e _ hb he p hp
      simp [insertBase] at hp
      subst hp
      exact ⟨hb, he⟩
  | cons q rest ih =>
      obtain ⟨b1, e1⟩ := q
      intro b e hbs hb he p hp
      have hb1 : P b1 = false := (hbs (b1, e1) (by simp)).1
      have he1 : P e1 = false := (hbs (b1, e1) (by simp)).2
      rw [insertBase] at hp
      by_cases hq : b1 = b
      · rw [if_pos hq] at hp
        rcases List.mem_cons.mp hp with rfl | hp2
        · refine ⟨by simpa using hb1, ?_⟩
          refine herd_addE hP _ ?_
          intro x hx
          simp only [List.mem_cons, List.not_mem_nil, or_false] at hx
          rcases hx with rfl | rfl
          · exact he1
          · exact he
        · exact hbs _ (by simp [hp2])
      · rw [if_neg hq] at hp
        rcases List.mem_cons.mp hp with rfl | hp2
        · exact ⟨by simpa using hb1, by simpa using he1⟩
        · exact ih b e (fun r hr => hbs r (by simp [hr])) hb he _ hp2

theorem herd_gatherFactors {P : Ex → Bool} (hP : Herd P) :
    ∀ (l : List Ex) (c : Q) (bs : List (Ex × Ex)),
      (∀ x ∈ l, P x = false) →
      (∀ p ∈ bs, P (p : Ex × Ex).1 = false ∧ P p.2 = false) →
      ∀ p ∈ (gatherFactors l c bs).2, P p.1 = false ∧ P p.2 = false := by
  intro l
  induction l with
  | nil => intro c bs _ hbs p hp; exact hbs p hp
  | cons x rest ih =>
      intro c bs hl hbs p hp
      have hx : P x = false := hl x (by simp)
      have hrest : ∀ y ∈ rest, P y = false := fun y hy => hl y (by simp [hy])
      cases x with
      | num q =>
          rw [show gatherFactors (Ex.num q :: rest) c bs = gatherFactors rest (c * q) bs
            from rfl] at hp
          exact ih (c * q) bs hrest hbs p hp
      | pow b e =>
          rw [show gatherFactors (Ex.pow b e :: rest) c bs
              = gatherFactors rest c (insertBase bs b e) from rfl] at hp
          have hbe : P b = false ∧ P e = false := by
            have h2 := hP.hpow b e
            rw [h2] at hx
            simpa using hx
          have hb : P b = false := hbe.1
          have he : P e = false := hbe.2
          exact ih c _ hrest (herd_insertBase hP bs b e hbs hb he) p hp
      | sym s =>
          rw [show gatherFactors (Ex.sym s :: rest) c bs
              = gatherFactors rest c (insertBase bs (Ex.sym s) (Ex.num 1)) from rfl] at hp
          exact ih c _ hrest (herd_insertBase hP bs _ _ hbs hx (hP.hnum 1)) p hp
      | iu =>
          rw [show gatherFactors (Ex.iu :: rest) c bs
              = gatherFactors rest c (insertBase bs Ex.iu (Ex.num 1)) from rfl] at hp
          exact ih c _ hrest (herd_insertBase hP bs _ _ hbs hx (hP.hnum 1)) p hp
      | epi =>
          rw [show gatherFactors (Ex.epi :: rest) c bs
              = gatherFactors rest c (insertBase bs Ex.epi (Ex.num 1)) from rfl] at hp
          exact ih c _ hrest (herd_insertBase hP bs _ _ hbs hx (hP.hnum 1)) p hp
      | add ts =>
          rw [show gatherFactors (Ex.add ts :: rest) c bs
              = gatherFactors rest c (insertBase bs (Ex.add ts) (Ex.num 1)) from rfl] at hp
          exact ih c _ hrest (herd_insertBase hP bs _ _ hbs hx (hP.hnum 1)) p hp
      | mul fs =>
          rw [show gatherFactors (Ex.mul fs :: rest) c bs
              = gatherFactors rest c (insertBase bs (Ex.mul fs) (Ex.num 1)) from rfl] at hp
          exact ih c _ hrest (herd_insertBase hP bs _ _ hbs hx (hP.hnum 1)) p hp
      | fexp a =>
          rw [show gatherFactors (Ex.fexp a :: rest) c bs
              = gatherFactors rest c (insertBase bs (Ex.fexp a) (Ex.num 1)) from rfl] at hp
          exact ih c _ hrest (herd_insertBase hP bs _ _ hbs hx (hP.hnum 1)) p hp
      | fcos a =>
          rw [show gatherFactors (Ex.fcos a :: rest) c bs
              = gatherFactors rest c (insertBase bs (Ex.fcos a) (Ex.num 1)) from rfl] at hp
          exact ih c _ hrest (herd_insertBase hP bs _ _ hbs hx (hP.hnum 1)) p hp
      | fsin a =>
          rw [show gatherFactors (Ex.fsin a :: rest) c bs
              = gatherFactors rest c (insertBase bs (Ex.fsin a) (Ex.num 1)) from rfl] at hp
          exact ih c _ hrest (herd_insertBase hP bs _ _ hbs hx (hP.hnum 1)) p hp
      | delta a n =>
          rw [show gatherFactors (Ex.delta a n :: rest) c bs
              = gatherFactors rest c (insertBase bs (Ex.delta a n) (Ex.num 1)) from rfl] at hp
          exact ih c _ hrest (herd_insertBase hP bs _ _ hbs hx (hP.hnum 1)) p hp
      | heav a =>
          rw [show gatherFactors (Ex.heav a :: rest) c bs
              = gatherFactors rest c (insertBase bs (Ex.heav a) (Ex.num 1)) from rfl] at hp
          exact ih c _ hrest (herd_insertBase hP bs _ _ hbs hx (hP.hnum 1)) p hp
      | sgn a =>
          rw [show gatherFactors (Ex.sgn a :: rest) c bs
              = gatherFactors rest c (insertBase bs (Ex.sgn a) (Ex.num 1)) from rfl] at hp
          exact ih c _ hrest (herd_insertBase hP bs _ _ hbs hx (hP.hnum 1)) p hp
      | fabs a =>
          rw [show gatherFactors (Ex.fabs a :: rest) c bs
              = gatherFactors rest c (insertBase bs (Ex.fabs a) (Ex.num 1)) from rfl] at hp
          exact ih c _ hrest (herd_insertBase hP bs _ _ hbs hx (hP.hnum 1)) p hp
      | undef g a =>
          rw [show gatherFactors (Ex.undef g a :: rest) c bs
              = gatherFactors rest c (insertBase bs (Ex.undef g a) (Ex.num 1)) from rfl] at hp
          exact ih c _ hrest (herd_insertBase hP bs _ _ hbs hx (hP.hnum 1)) p hp
      | integ a v =>
          rw [show gatherFactors (Ex.integ a v :: rest) c bs
              = gatherFactors rest c (insertBase bs (Ex.integ a v) (Ex.num 1)) from rfl] at hp
          exact ih c _ hrest (herd_insertBase hP bs _ _ hbs hx (hP.hnum 1)) p hp
      | uneval a =>
          rw [show gatherFactors (Ex.uneval a :: rest) c bs
              = gatherFactors rest c (insertBase bs (Ex.uneval a) (Ex.num 1)) from rfl] at hp
          exact ih c _ hrest (herd_insertBase hP bs _ _ hbs hx (hP.hnum 1)) p hp

theorem herd_rebuildFactors {P : Ex → Bool} (hP : Herd P) :
    ∀ (bs : List (Ex × Ex)) (c : Q),
      (∀ p ∈ bs, P (p : Ex × Ex).1 = false ∧ P p.2 = false) →
      ∀ x ∈ (rebuildFactors c bs).2, P x = false := by
  intro bs
  induction bs with
  | nil => intro c _ x hx; simp [rebuildFactors] at hx
  | cons q rest ih =>
      obtain ⟨b1, e1⟩ := q
      intro c hbs x hx
      have hb1 : P b1 = false := (hbs (b1, e1) (by simp)).1
      have he1 : P e1 = false := (hbs (b1, e1) (by simp)).2
      have hrest : ∀ p ∈ rest, P (p : Ex × Ex).1 = false ∧ P p.2 = false :=
        fun p hp => hbs p (by simp [hp])
      rw [rebuildFactors.eq_def] at hx
      simp only [] at hx
      split at hx
      · exact ih c hrest x hx
      · split at hx
        · split at hx
          · split at hx
            · rcases List.mem_cons.mp hx with rfl | hx2
              · exact hP.hiu
              · exact ih _ hrest x hx2
            · exact ih _ hrest x hx
          · rcases List.mem_cons.mp hx with rfl | hx2
            · rw [hP.hpow]
              simp [hP.hiu, he1]
            · exact ih c hrest x hx2
        · split at hx
          · exact ih _ hrest x hx
          · rcases List.mem_cons.mp hx with rfl | hx2
            · exact herd_mkPow hP _ _ hb1 he1
            · exact ih c hrest x hx2
        · rcases List.mem_cons.mp hx with rfl | hx2
          · exact herd_mkPow hP _ _ hb1 he1
          · exact ih c hrest x hx2

theorem herd_mulE {P : Ex → Bool} (hP : Herd P) (l : List Ex)
    (h : ∀ x ∈ l, P x = false) : P (mulE l) = false := by
  have hflat : ∀ x ∈ l.flatMap mulArgs, P x = false := by
    intro x hx
    rw [List.mem_flatMap] at hx
    obtain ⟨y, hy, hxy⟩ := hx
    exact herd_mulArgs hP y (h y hy) x hxy
  have hpairs := herd_gatherFactors hP (l.flatMap mulArgs) 1 [] hflat (by intro p hp; cases hp)
  have hfs := herd_rebuildFactors hP (gatherFactors (l.flatMap mulArgs) 1 []).2
    (gatherFactors (l.flatMap mulArgs) 1 []).1 hpairs
  rw [mulE]
  split
  · exact hP.hnum 0
  · cases hl2 : (rebuildFactors (gatherFactors (l.flatMap mulArgs) 1 []).1
        (gatherFactors (l.flatMap mulArgs) 1 []).2).2 with
    | nil => simp only [hl2]; exact hP.hnum _
    | cons y ys =>
        simp only [hl2]
        have hmem : ∀ x ∈ y :: ys, P x = false := by
          intro x hx
          exact hfs x (by rw [hl2]; exact hx)
        split
        · cases ys with
          | nil => exact hmem y (by simp)
          | cons z zs => exact herd_exMul hP _ hmem
        · refine herd_exMul hP _ ?_
          intro x hx
          rcases List.mem_cons.mp hx with rfl | hx2
          · exact hP.hnum _
          · exact hmem x hx2

theorem herd_powE {P : Ex → Bool} (hP : Herd P) (b e : Ex)
    (hb : P b = false) (he : P e = false) : P (powE b e) = false := by
  rw [powE.eq_def]
  split
  · next fs k =>
      split
      · refine herd_mulE hP _ ?_
        intro x hx
        rw [List.mem_map] at hx
        obtain ⟨y, hy, hxy⟩ := hx
        have hy2 : P y = false := by
          rw [hP.hmul] at hb
          simp only [List.any_eq_false] at hb
          simpa using hb y hy
        exact hxy ▸ herd_mkPow hP y (Ex.num k) hy2 (hP.hnum k)
      · exact herd_mkPow hP _ _ hb he
  · exact herd_mkPow hP _ _ hb he

theorem herd_divE {P : Ex → Bool} (hP : Herd P) (a b : Ex)
    (ha : P a = false) (hb : P b = false) : P (divE a b) = false := by
  refine herd_mulE hP _ ?_
  intro x hx
  simp only [List.mem_cons, List.not_mem_nil, or_false] at hx
  rcases hx with rfl | rfl
  · exact ha
  · exact herd_powE hP _ _ hb (hP.hnum _)

theorem herd_subE {P : Ex → Bool} (hP : Herd P) (a b : Ex)
    (ha : P a = false) (hb : P b = false) : P (subE a b) = false := by
  refine herd_addE hP _ ?_
  intro x hx
  simp only [List.mem_cons, List.not_mem_nil, or_false] at hx
  rcases hx with rfl | rfl
  · exact ha
  · refine herd_mulE hP _ ?_
    intro y hy
    simp only [List.mem_cons, List.not_mem_nil, or_false] at hy
    rcases hy with rfl | rfl
    · exact hP.hnum _
    · exact hb

theorem herd_expE {P : Ex → Bool} (hP : Herd P) (a : Ex)
    (ha : P a = false) : P (expE a) = false := by
  rw [expE]
  split
  · exact hP.hnum 1
  · rw [hP.hfexp]; exact ha

theorem herd_expIU {P : Ex → Bool} (hP : Herd P) (r : Ex) (hr : P r = false) :
    P (expE (mulE [Ex.iu, r])) = false ∧
      P (expE (mulE [Ex.num (-1), Ex.iu, r])) = false := by
  constructor
  · refine herd_expE hP _ (herd_mulE hP _ ?_)
    intro x hx
    simp only [List.mem_cons, List.not_mem_nil, or_false] at hx
    rcases hx with rfl | rfl
    · exact hP.hiu
    · exact hr
  · refine herd_expE hP _ (herd_mulE hP _ ?_)
    intro x hx
    simp only [List.mem_cons, List.not_mem_nil, or_false] at hx
    rcases hx with rfl | rfl | rfl
    · exact hP.hnum _
    · exact hP.hiu
    · exact hr

mutual

theorem herd_rwExp {P : Ex → Bool} (hP : Herd P) :
    ∀ (e : Ex), P e = false → P (rwExp e) = false
  | .num q, h => h
  | .sym s, h => h
  | .iu, h => h
  | .epi, h => h
  | .add ts, h => by
      show P (Ex.add (ExList.ofList (rwExpL ts))) = false
      rw [hP.hadd, ExList.toList_ofList]
      simp only [List.any_eq_false, Bool.not_eq_true]
      rw [hP.hadd] at h
      simp only [List.any_eq_false, Bool.not_eq_true] at h
      exact herd_rwExpL hP ts h
  | .mul fs, h => by
      show P (Ex.mul (ExList.ofList (rwExpL fs))) = false
      rw [hP.hmul, ExList.toList_ofList]
      simp only [List.any_eq_false, Bool.not_eq_true]
      rw [hP.hmul] at h
      simp only [List.any_eq_false, Bool.not_eq_true] at h
      exact herd_rwExpL hP fs h
  | .pow b e, h => by
      rw [hP.hpow, Bool.or_eq_false_iff] at h
      show P (Ex.pow (rwExp b) (rwExp e)) = false
      rw [hP.hpow, herd_rwExp hP b h.1, herd_rwExp hP e h.2]
      rfl
  | .fexp a, h => by
      show P (Ex.fexp (rwExp a)) = false
      rw [hP.hfexp]
      exact herd_rwExp hP a (by rw [hP.hfexp] at h; exact h)
  | .fcos a, h => by
      have ha : P a = false := by rw [hP.hfcos] at h; exact h
      have hr := herd_rwExp hP a ha
      obtain ⟨h1, h2⟩ := herd_expIU hP (rwExp a) hr
      show P (divE (addE [expE (mulE [Ex.iu, rwExp a]),
        expE (mulE [Ex.num (-1), Ex.iu, rwExp a])]) (Ex.num 2)) = false
      refine herd_divE hP _ _ ?_ (hP.hnum 2)
      refine herd_addE hP _ ?_
      intro x hx
      simp only [List.mem_cons, List.not_mem_nil, or_false] at hx
      rcases hx with rfl | rfl
      · exact h1
      · exact h2
  | .fsin a, h => by
      have ha : P a = false := by rw [hP.hfsin] at h; exact h
      have hr := herd_rwExp hP a ha
      obtain ⟨h1, h2⟩ := herd_expIU hP (rwExp a) hr
      show P (mulE [Ex.num (-1), Ex.iu,
        divE (subE (expE (mulE [Ex.iu, rwExp a]))
          (expE (mulE [Ex.num (-1), Ex.iu, rwExp a]))) (Ex.num 2)]) = false
      refine herd_mulE hP _ ?_
      intro x hx
      simp only [List.mem_cons, List.not_mem_nil, or_false] at hx
      rcases hx with rfl | rfl | rfl
      · exact hP.hnum _
      · exact hP.hiu
      · exact herd_divE hP _ _ (herd_subE hP _ _ h1 h2) (hP.hnum 2)
  | .delta a n, h => by
      show P (Ex.delta (rwExp a) n) = false
      rw [hP.hdelta]
      exact herd_rwExp hP a (by rw [hP.hdelta] at h; exact h)
  | .heav a, h => by
      show P (Ex.heav (rwExp a)) = false
      rw [hP.hheav]
      exact herd_rwExp hP a (by rw [hP.hheav] at h; exact h)
  | .sgn a, h => by
      show P (Ex.sgn (rwExp a)) = false
      rw [hP.hsgn]
      exact herd_rwExp hP a (by rw [hP.hsgn] at h; exact h)
  | .fabs a, h => by
      show P (Ex.fabs (rwExp a)) = false
      rw [hP.hfabs]
      exact herd_rwExp hP a (by rw [hP.hfabs] at h; exact h)
  | .undef g a, h => by
      show P (Ex.undef g (rwExp a)) = false
      exact hP.hundef_mk g a _ h (herd_rwExp hP a (hP.hundef_inv g a h))
  | .integ b v, h => by
      show P (Ex.integ (rwExp b) v) = false
      exact hP.hinteg_mk v b _ h (herd_rwExp hP b (hP.hinteg_inv v b h))
  | .uneval a, h => by
      show P (Ex.uneval (rwExp a)) = false
      rw [hP.huneval]
      exact herd_rwExp hP a (by rw [hP.huneval] at h; exact h)

theorem herd_rwExpL {P : Ex → Bool} (hP : Herd P) :
    ∀ (ts : ExList), (∀ y ∈ ts.toList, P y = false) →
      ∀ x ∈ rwExpL ts, P x = false
  | .nil, _, x, hx => absurd hx (by simp [rwExpL])
  | .cons e es, h, x, hx => by
      rcases List.mem_cons.mp hx with rfl | hx2
      · exact herd_rwExp hP e (h e (by simp [ExList.toList]))
      · exact herd_rwExpL hP es (fun y hy => h y (by simp [ExList.toList, hy])) x hx2

end

theorem herd_crossTerms {P : Ex → Bool} (hP : Herd P) :
    ∀ (l : List Ex), (∀ x ∈ l, P x = false) →
      ∀ g ∈ crossTerms l, ∀ x ∈ g, P x = false
  | [], _, g, hg, x, hx => by
      simp only [crossTerms, List.mem_cons, List.not_mem_nil, or_false] at hg
      subst hg
      simp at hx
  | y :: rest, h, g, hg, x, hx => by
      simp only [crossTerms, List.mem_flatMap, List.mem_map] at hg
      obtain ⟨τ, hτ, l2, hl2, rfl⟩ := hg
      rcases List.mem_cons.mp hx with hxe | hx2
      · rw [hxe]
        exact herd_addArgs hP y (h y (by simp)) τ hτ
      · exact herd_crossTerms hP rest (fun z hz => h z (by simp [hz])) l2 hl2 x hx2

mutual

theorem herd_expandE {P : Ex → Bool} (hP : Herd P) :
    ∀ (e : Ex), P e = false → P (expandE e) = false
  | .add ts, h => by
      show P (addE (expandL ts)) = false
      refine herd_addE hP _ ?_
      rw [hP.hadd] at h
      simp only [List.any_eq_false, Bool.not_eq_true] at h
      exact herd_expandL hP ts h
  | .mul fs, h => by
      show P (addE ((crossTerms (expandL fs)).map mulE)) = false
      refine herd_addE hP _ ?_
      intro x hx
      rw [List.mem_map] at hx
      obtain ⟨g, hg, rfl⟩ := hx
      refine herd_mulE hP _ ?_
      rw [hP.hmul] at h
      simp only [List.any_eq_false, Bool.not_eq_true] at h
      exact herd_crossTerms hP (expandL fs) (herd_expandL hP fs h) g hg
  | .num q, h => h
  | .sym s, h => h
  | .iu, h => h
  | .epi, h => h
  | .pow b e, h => h
  | .fexp a, h => h
  | .fcos a, h => h
  | .fsin a, h => h
  | .delta a n, h => h
  | .heav a, h => h
  | .sgn a, h => h
  | .fabs a, h => h
  | .undef g a, h => h
  | .integ b v, h => h
  | .uneval a, h => h

theorem herd_expandL {P : Ex → Bool} (hP : Herd P) :
    ∀ (ts : ExList), (∀ y ∈ ts.toList, P y = false) →
      ∀ x ∈ expandL ts, P x = false
  | .nil, _, x, hx => absurd hx (by simp [expandL])
  | .cons e es, h, x, hx => by
      rcases List.mem_cons.mp hx with rfl | hx2
      · exact herd_expandE hP e (h e (by simp [ExList.toList]))
      · exact herd_expandL hP es (fun y hy => h y (by simp [ExList.toList, hy])) x hx2

end

theorem fourier_term_const (S : Solver) (fuel : Nat) (e : Ex) (t f : String) (inv : Bool)
    (h1 : hasUndef e = false) (h2 : hasSym e t = false) :
    fourier_term S (fuel + 1) e t f inv = .ok (mulE [e, Ex.delta (Ex.sym f) 0]) := by
  rw [fourier_term]
  simp only [h1, Bool.false_eq_true, if_false, h2, eq_self_iff_true, if_true]

theorem sumTermsE_const (S : Solver) (fuel : Nat) (t f : String) (inv : Bool) :
    ∀ (terms : List Ex) (acc : Ex),
      (∀ τ ∈ terms, hasSym τ t = false ∧ hasUndef τ = false) →
      sumTermsE S (fuel + 1) t f inv acc terms
        = .ok (terms.foldl (fun a τ => addE [a, mulE [τ, Ex.delta (Ex.sym f) 0]]) acc)
  | [], acc, _ => rfl
  | τ :: rest, acc, h => by
      rw [sumTermsE]
      rw [fourier_term_const S fuel τ t f inv (h τ (by simp)).2 (h τ (by simp)).1]
      rw [List.foldl_cons]
      exact sumTermsE_const S fuel t f inv rest (addE [acc, mulE [τ, Ex.delta (Ex.sym f) 0]])
        (fun x hx => h x (by simp [hx]))

/-- Claim C2 (amended): for every expression `a` free of the domain
variable `t` and containing no applied undefined function, the forward
transform succeeds and returns the sum, over the additive terms `τ` of
the expanded (sinusoid-rewritten) `a`, of `τ * DiracDelta(f)`; when
that expansion has a single term `a` this is `a * DiracDelta(f)`, but
for a sum it is the termwise sum of impulses, not `a * DiracDelta(f)`
itself. -/
theorem c2_amended_thm (S : Solver) (fuel : Nat) (a : Ex) (t f : String)
    (h1 : hasSym a t = false) (h2 : hasUndef a = false) :
    (fourier_transform S (fuel + 1) [] a t f false).1
      = .ok ((addArgs (expandE (if hasCos a || hasSin a then rwExp a else a))).foldl
          (fun acc τ => addE [acc, mulE [τ, Ex.delta (Ex.sym f) 0]]) (Ex.num 0)) := by
  rw [fourier_transform]
  simp only [lookupC]
  rw [fourier_transform_core]
  simp only [Bool.false_eq_true, if_false]
  set e2 := if hasCos a || hasSin a then rwExp a else a with he2
  have h1b : hasSym e2 t = false := by
    rw [he2]; split
    · exact herd_rwExp (herd_hasSym t) a h1
    · exact h1
  have h2b : hasUndef e2 = false := by
    rw [he2]; split
    · exact herd_rwExp herd_hasUndef a h2
    · exact h2
  have hterms : ∀ τ ∈ addArgs (expandE e2), hasSym τ t = false ∧ hasUndef τ = false := by
    intro τ hτ
    exact ⟨herd_addArgs (herd_hasSym t) _ (herd_expandE (herd_hasSym t) e2 h1b) τ hτ,
           herd_addArgs herd_hasUndef _ (herd_expandE herd_hasUndef e2 h2b) τ hτ⟩
  rw [sumTermsE_const S fuel t f false (addArgs (expandE e2)) (Ex.num 0) hterms]

/-- Witness for C2: the `t`-free sinusoid `cos(b)` at fuel 6. -/
theorem c2_witness :
    hasSym (Ex.fcos (Ex.sym bN)) tN = false
    ∧ hasUndef (Ex.fcos (Ex.sym bN)) = false
    ∧ (fourier_transform unresolvedSolver 6 [] (Ex.fcos (Ex.sym bN)) tN fN false).1
      = .ok ((addArgs (expandE (if hasCos (Ex.fcos (Ex.sym bN)) || hasSin (Ex.fcos (Ex.sym bN))
            then rwExp (Ex.fcos (Ex.sym bN)) else Ex.fcos (Ex.sym bN)))).foldl
          (fun acc τ => addE [acc, mulE [τ, Ex.delta (Ex.sym fN) 0]]) (Ex.num 0)) :=
  ⟨by decide, by decide,
    c2_amended_thm unresolvedSolver 5 (Ex.fcos (Ex.sym bN)) tN fN (by decide) (by decide)⟩

end LcapyFourier
